import Mathlib

/-!
Verification model of the gtsam Hybrid Bayes Net core (`gtsam/hybrid`) and of
`SmartProjectionPoseFactor::error` (`gtsam/slam/SmartProjectionPoseFactor.h`).

The repository snapshot ships the unit tests (`testHybridBayesNet.cpp`) and the
smart-factor header; the `HybridBayesNet` implementation itself is not part of
the snapshot.  Components absent from the snapshot are therefore modelled from
the specification, with the shipped test file treated as the authority on
behaviour wherever its assertions pin it down (error values, pruning survivors,
regression deltas).  Doubles are modelled as exact rationals.

Decision trees are modelled in tabulated form: an ordered list of
(key, cardinality) pairs and one leaf per assignment in lexicographic order
(first key slowest), which is exactly the `AlgebraicDecisionTree(keys, leaves)`
constructor the tests use.  Structural sharing of subtrees is a performance
device in the source; the specification requires leaf values "correct as if
materialized", which is what the tabulated form gives.
-/

namespace GtsamHybrid

attribute [local semireducible] Rat.add Rat.mul Rat.inv Rat.sub Rat.ofScientific

set_option maxRecDepth 8000

/-- Variable identifier (gtsam `Key`). -/
abbrev Key := Nat

/-- Modelled from the spec: a Discrete Assignment is an immutable mapping from
discrete-variable identifiers to small non-negative integers (gtsam
`DiscreteValues`), modelled as an association list. -/
abbrev DiscreteValues := List (Key × Nat)

/-- First-match lookup in a discrete assignment. -/
def dvLookup : DiscreteValues → Key → Option Nat
  | [], _ => none
  | kv :: rest, k => if kv.1 = k then some kv.2 else dvLookup rest k

/-- Total view of an assignment (missing keys read as 0; the operations below
guard on coverage before using this). -/
def dvFun (d : DiscreteValues) (k : Key) : Nat :=
  (dvLookup d k).getD 0

/-- `coversB d keys` holds when the assignment provides an in-range value for
every (key, cardinality) pair: the "no required key absent" check. Extra keys
in `d` are ignored, as the spec requires. -/
def coversB (d : DiscreteValues) (keys : List (Key × Nat)) : Bool :=
  keys.all fun kc =>
    match dvLookup d kc.1 with
    | some v => v < kc.2
    | none => false

/-- Product of the cardinalities: the number of assignments in the domain. -/
def prodCards (keys : List (Key × Nat)) : Nat :=
  keys.foldr (fun kc acc => kc.2 * acc) 1

/-- All assignments over an ordered key list, lexicographically, first key
slowest.  This is the leaf order of the tabulated decision tree. -/
def enumAssignments : List (Key × Nat) → List DiscreteValues
  | [] => [[]]
  | kc :: rest =>
      ((List.range kc.2).map fun v =>
        (enumAssignments rest).map fun a => (kc.1, v) :: a).flatten

/-- Lexicographic index of the assignment described by the valuation `ρ`. -/
def indexOfA (ρ : Key → Nat) : List (Key × Nat) → Nat
  | [] => 0
  | kc :: rest => ρ kc.1 * prodCards rest + indexOfA ρ rest

/-- The canonical association list of the valuation `ρ` over `keys`. -/
def canonAssign (keys : List (Key × Nat)) (ρ : Key → Nat) : DiscreteValues :=
  keys.map fun kc => (kc.1, ρ kc.1)

/-- `InRange ρ keys`: the valuation respects every cardinality bound. -/
def InRange (ρ : Key → Nat) (keys : List (Key × Nat)) : Prop :=
  ∀ kc ∈ keys, ρ kc.1 < kc.2

/-- Modelled from the spec: a Decision Tree over a scalar, keyed by an ordered
list of (discrete variable, cardinality) pairs, one leaf per assignment of the
joint domain in lexicographic order. -/
structure DecisionTree (α : Type) where
  dkeys : List (Key × Nat)
  leaves : List α
deriving DecidableEq

/-- Tree evaluation at an assignment (`DecisionTree::operator()`): fails (with
`KeyNotFoundError`, modelled as `none`) when a required key is absent or out of
range; tolerates extra keys. -/
def treeAt {α : Type} (t : DecisionTree α) (d : DiscreteValues) : Option α :=
  if coversB d t.dkeys then t.leaves[indexOfA (dvFun d) t.dkeys]? else none

/-- Build the tabulated tree over `keys` whose leaf at each assignment `a` is
`f a`. -/
def buildTree {α : Type} (keys : List (Key × Nat)) (f : DiscreteValues → α) :
    DecisionTree α :=
  ⟨keys, (enumAssignments keys).map f⟩

/-- `DecisionTree::apply` with a unary op: maps every leaf, preserving
structure. -/
def mapLeaves {α β : Type} (f : α → β) (t : DecisionTree α) : DecisionTree β :=
  ⟨t.dkeys, t.leaves.map f⟩

/-- Well-formed tree: one leaf per assignment, by-key distinct key list,
positive cardinalities. -/
def TreeWF {α : Type} (t : DecisionTree α) : Prop :=
  t.leaves.length = prodCards t.dkeys ∧
  (t.dkeys.map Prod.fst).Nodup ∧
  ∀ kc ∈ t.dkeys, 1 ≤ kc.2

instance {α : Type} (t : DecisionTree α) : Decidable (TreeWF t) := by
  unfold TreeWF
  exact inferInstance

/-- `SubKeys l1 l2`: every (key, cardinality) pair of `l1` occurs in `l2`
(so in particular the cardinalities agree). -/
def SubKeys (l1 l2 : List (Key × Nat)) : Prop :=
  ∀ kc ∈ l1, kc ∈ l2

/-- Cardinality agreement between two key lists. -/
def Agreement (l1 l2 : List (Key × Nat)) : Prop :=
  ∀ kc1 ∈ l1, ∀ kc2 ∈ l2, kc1.1 = kc2.1 → kc1.2 = kc2.2

instance (l1 l2 : List (Key × Nat)) : Decidable (SubKeys l1 l2) := by
  unfold SubKeys
  exact inferInstance

instance (l1 l2 : List (Key × Nat)) : Decidable (Agreement l1 l2) := by
  unfold Agreement
  exact inferInstance

/-- Ordered union of two key lists (first list's order, then the new keys of
the second). -/
def keysUnion (l1 l2 : List (Key × Nat)) : List (Key × Nat) :=
  l1 ++ l2.filter fun kc => !(l1.any fun kc2 => kc2.1 = kc.1)

/-- Modelled from the spec: `DecisionTree::combine` ("apply" with a binary
operator): pointwise application across the union of discrete keys.  Leaf
values are those of the materialized joint domain, as the spec requires. -/
def combineQ (op : ℚ → ℚ → ℚ) (t1 t2 : DecisionTree ℚ) : DecisionTree ℚ :=
  buildTree (keysUnion t1.dkeys t2.dkeys) fun a =>
    op ((treeAt t1 a).getD 0) ((treeAt t2 a).getD 0)

/-! ## Continuous side: Gaussian conditionals

The spec treats the dense linear-algebra representation as external; what the
core relies on is a triangular system `R x_frontal + S x_parent = d` with a
residual/negative-log-density evaluator and a back-substitution solve.  Each
`Key` carries one scalar dimension (multi-dimensional variables are several
keys), and doubles are exact rationals. -/

/-- Continuous values (gtsam `VectorValues`), one rational per key. -/
abbrev VectorValues := List (Key × ℚ)

/-- First-match lookup in continuous values. -/
def vvLookup : VectorValues → Key → Option ℚ
  | [], _ => none
  | kv :: rest, k => if kv.1 = k then some kv.2 else vvLookup rest k

/-- Total view of continuous values (missing keys read as 0). -/
def vvFun (v : VectorValues) (k : Key) : ℚ :=
  (vvLookup v k).getD 0

/-- Dot product of a coefficient row with the values of a key list. -/
def dotKeys (row : List ℚ) (ks : List Key) (v : VectorValues) : ℚ :=
  (row.zip ks).foldr (fun p acc => p.1 * vvFun v p.2 + acc) 0

/-- Modelled from the spec: a Gaussian Conditional (absent from the snapshot):
a conditional density over its frontal variables given its parents,
parameterized by the triangular system `R x_f + S x_p = d` (whitened). -/
structure GaussianConditional where
  frontals : List Key
  parents : List Key
  R : List (List ℚ)
  S : List (List ℚ)
  d : List ℚ
deriving DecidableEq

/-- Whitened residual vector `R x_f + S x_p - d` at the given values. -/
def gcResidual (gc : GaussianConditional) (v : VectorValues) : List ℚ :=
  (gc.R.zip (gc.S.zip gc.d)).map fun rsd =>
    dotKeys rsd.1 gc.frontals v + dotKeys rsd.2.1 gc.parents v - rsd.2.2

/-- `GaussianConditional::error`: half the squared norm of the whitened
residual. -/
def gcError (gc : GaussianConditional) (v : VectorValues) : ℚ :=
  (1 / 2) * ((gcResidual gc v).map fun r => r ^ 2).sum

/-- Dot product of two coefficient lists. -/
def dotVec (a b : List ℚ) : ℚ :=
  (a.zip b).foldr (fun p acc => p.1 * p.2 + acc) 0

/-- Back-substitution through an upper-triangular system, last variable
first. -/
def backSubstitute : List (List ℚ) → List ℚ → List ℚ
  | row :: rows, r0 :: rhs =>
      let xs := backSubstitute (rows.map List.tail) rhs
      ((r0 - dotVec row.tail xs) / row.headD 1) :: xs
  | _, _ => []
termination_by rows _ => rows.length
decreasing_by simp

/-- `GaussianConditional::solve`: values of the frontal variables given the
already-solved parents, by back-substitution on `R x_f = d - S x_p`. -/
def gcSolve (gc : GaussianConditional) (sol : VectorValues) : VectorValues :=
  gc.frontals.zip
    (backSubstitute gc.R
      (List.zipWith (fun di srow => di - dotKeys srow gc.parents sol) gc.d gc.S))

/-- A Gaussian Bayes net: Gaussian conditionals in elimination order; entries
are nullable, mirroring the shared-pointer slots of the source (pruned mixture
branches leave null conditionals behind). -/
abbrev GaussianBayesNet := List (Option GaussianConditional)

/-- `GaussianBayesNet::optimize`: back-substitution in reverse elimination
order, each conditional extending the solution with its frontal variables. -/
def gbnOptimize (gbn : GaussianBayesNet) : VectorValues :=
  gbn.reverse.foldl
    (fun sol oc =>
      match oc with
      | some gc => sol ++ gcSolve gc sol
      | none => sol) []

/-! ## Hybrid conditionals and the Hybrid Bayes Net -/

/-- Modelled from the spec: a pure discrete conditional, as its probability
table over its (frontal and parent) discrete keys. -/
structure DiscreteConditional where
  table : DecisionTree ℚ
deriving DecidableEq

/-- `DiscreteConditional::operator()`: probability at an assignment. -/
def dcProb (dc : DiscreteConditional) (d : DiscreteValues) : ℚ :=
  (treeAt dc.table d).getD 0

/-- Modelled from the spec: a Gaussian Mixture conditional: one (nullable)
Gaussian conditional per discrete branch.  Null branches arise only from
pruning. -/
structure GaussianMixture where
  tree : DecisionTree (Option GaussianConditional)
deriving DecidableEq

/-- The error sentinel for a pruned (null) mixture branch: a very large finite
value, `1e50` in the source. -/
def sentinelErr : ℚ := 10 ^ 50

/-- Per-branch error: the conditional's error, or the sentinel on a pruned
(null) branch, exactly as `GaussianMixture::error` does. -/
def gmErrorLeaf (v : VectorValues) : Option GaussianConditional → ℚ
  | some gc => gcError gc v
  | none => sentinelErr

/-- `GaussianMixture::error(continuousValues)`: the decision tree of
per-branch errors. -/
def gmErrorTree (gm : GaussianMixture) (v : VectorValues) : DecisionTree ℚ :=
  mapLeaves (gmErrorLeaf v) gm.tree

/-- `GaussianMixture::error(continuousValues, discreteValues)`: the selected
branch's error. -/
def gmErrorAt (gm : GaussianMixture) (v : VectorValues) (d : DiscreteValues) : ℚ :=
  ((treeAt gm.tree d).map (gmErrorLeaf v)).getD 0

/-- Modelled from the spec: a Hybrid Conditional is a tagged union of a pure
discrete conditional, a pure Gaussian conditional, and a Gaussian mixture. -/
inductive HybridConditional where
  | discrete (dc : DiscreteConditional)
  | gaussian (gc : GaussianConditional)
  | mixture (gm : GaussianMixture)
deriving DecidableEq

/-- Modelled from the spec: a Hybrid Bayes Net is an ordered sequence of
hybrid conditionals in elimination order. -/
abbrev HybridBayesNet := List HybridConditional

/-- The discrete keys of the net: union of the discrete conditionals' keys in
order.  (The elimination engine eliminates discrete variables last, so these
cover every discrete key of the net; well-formedness below records that the
mixtures' keys are among them.) -/
def discreteKeysOf (net : HybridBayesNet) : List (Key × Nat) :=
  net.foldr
    (fun hc acc =>
      match hc with
      | .discrete dc => keysUnion dc.table.dkeys acc
      | _ => acc) []

/-- Well-formedness of one conditional relative to the net's discrete keys:
tabulated trees are complete, probabilities are non-negative, and discrete
keys are covered by the net's discrete key list. -/
def condWF (netKeys : List (Key × Nat)) : HybridConditional → Prop
  | .discrete dc =>
      TreeWF dc.table ∧ (∀ q ∈ dc.table.leaves, 0 ≤ q) ∧
        SubKeys dc.table.dkeys netKeys
  | .gaussian _ => True
  | .mixture gm => TreeWF gm.tree ∧ SubKeys gm.tree.dkeys netKeys

instance (netKeys : List (Key × Nat)) (hc : HybridConditional) :
    Decidable (condWF netKeys hc) := by
  cases hc <;> { dsimp only [condWF]; exact inferInstance }

/-- Well-formed Hybrid Bayes Net. -/
def NetWF (net : HybridBayesNet) : Prop :=
  ∀ hc ∈ net, condWF (discreteKeysOf net) hc

instance (net : HybridBayesNet) : Decidable (NetWF net) := by
  unfold NetWF
  exact inferInstance

/-! ## The four consumer operations -/

/-- Per-conditional contribution to `HybridBayesNet::error(v, d)`: the
selected branch error for a mixture, the Gaussian error for a continuous
conditional.  Discrete conditionals contribute nothing: the shipped test
(`testHybridBayesNet.cpp`, `Error`) sums only the mixture and continuous
errors and asserts equality with `error(v, d)` to 1e-9. -/
def condErrorScalar (v : VectorValues) (d : DiscreteValues) :
    HybridConditional → ℚ
  | .discrete _ => 0
  | .gaussian gc => gcError gc v
  | .mixture gm => gmErrorAt gm v d

/-- `HybridBayesNet::error(continuousValues, discreteValues)`: the total error
of the conditionals selected by the assignment. -/
def errorScalar (net : HybridBayesNet) (v : VectorValues) (d : DiscreteValues) : ℚ :=
  (net.map (condErrorScalar v d)).sum

/-- One step of the joint error tree fold: add a conditional's error to the
accumulated tree. -/
def errorTreeStep (v : VectorValues) (acc : DecisionTree ℚ) :
    HybridConditional → DecisionTree ℚ
  | .discrete _ => acc
  | .gaussian gc => mapLeaves (fun q => q + gcError gc v) acc
  | .mixture gm => combineQ (· + ·) acc (gmErrorTree gm v)

/-- `HybridBayesNet::error(continuousValues)`: the joint error decision tree,
combining (with addition) each conditional's per-branch error tree; a
continuous conditional adds its scalar error to every leaf; discrete
conditionals are skipped. -/
def errorTree (net : HybridBayesNet) (v : VectorValues) : DecisionTree ℚ :=
  net.foldl (errorTreeStep v) ⟨[], [0]⟩

/-- The error raised by `HybridBayesNet::choose` when the assignment does not
cover some mixture's discrete keys. -/
inductive HybridFailure where
  | assignmentIncompleteErr
deriving DecidableEq

instance {ε α : Type} [DecidableEq ε] [DecidableEq α] : DecidableEq (Except ε α) :=
  fun x y =>
    match x, y with
    | .ok a, .ok b =>
        if h : a = b then isTrue (by rw [h])
        else isFalse fun hc => h (by injection hc)
    | .error e, .error f =>
        if h : e = f then isTrue (by rw [h])
        else isFalse fun hc => h (by injection hc)
    | .ok _, .error _ => isFalse fun hc => Except.noConfusion hc
    | .error _, .ok _ => isFalse fun hc => Except.noConfusion hc

/-- `HybridBayesNet::choose(assignment)`: collapse every mixture through its
`operator()(assignment)`, keep continuous conditionals, drop discrete ones;
fail with `AssignmentIncompleteError` when a mixture's keys are not covered. -/
def choose (net : HybridBayesNet) (d : DiscreteValues) :
    Except HybridFailure GaussianBayesNet :=
  match net with
  | [] => .ok []
  | .discrete _ :: rest => choose rest d
  | .gaussian gc :: rest => (choose rest d).map fun l => some gc :: l
  | .mixture gm :: rest =>
      if coversB d gm.tree.dkeys then
        (choose rest d).map fun l => (treeAt gm.tree d).getD none :: l
      else .error .assignmentIncompleteErr

/-- Product of the discrete conditionals' probabilities at an assignment: the
(unnormalized) discrete posterior the discrete phase of `optimize` and
`prune` rank by. -/
def jointProb (net : HybridBayesNet) (d : DiscreteValues) : ℚ :=
  (net.map fun hc =>
    match hc with
    | .discrete dc => dcProb dc d
    | _ => 1).prod

/-- First-wins running argmax. -/
def argmaxGo (f : DiscreteValues → ℚ) (best : DiscreteValues) :
    List DiscreteValues → DiscreteValues
  | [] => best
  | y :: ys => argmaxGo f (if f best < f y then y else best) ys

/-- Discrete phase of `HybridBayesNet::optimize()`: the most probable
assignment of the discrete conditionals (first-encountered maximum wins, the
deterministic tie-break the spec requires). -/
def mpe (net : HybridBayesNet) : DiscreteValues :=
  match enumAssignments (discreteKeysOf net) with
  | [] => []
  | a :: rest => argmaxGo (jointProb net) a rest

/-- `HybridBayesNet::optimize()`: most probable discrete assignment, then
back-substitution through the chosen Gaussian Bayes net. -/
def optimize (net : HybridBayesNet) :
    DiscreteValues × Except HybridFailure VectorValues :=
  (mpe net, (choose net (mpe net)).map gbnOptimize)

/-- The `maxNrLeaves`-th largest value of a list (0 when the list is
shorter): the pruning threshold on discrete probabilities. -/
def kthLargest (l : List ℚ) (m : Nat) : ℚ :=
  ((l.insertionSort (· ≥ ·))[m - 1]?).getD 0

/-- The pruning threshold of a net: the `maxNrLeaves`-th largest joint
discrete probability. -/
def pruneThreshold (net : HybridBayesNet) (m : Nat) : ℚ :=
  kthLargest ((enumAssignments (discreteKeysOf net)).map (jointProb net)) m

/-- A (complete) assignment survives pruning when its joint discrete
probability reaches the threshold. -/
def survivesB (net : HybridBayesNet) (m : Nat) (d : DiscreteValues) : Bool :=
  decide (pruneThreshold net m ≤ jointProb net d)

/-- `compatB a d`: the partial assignment `a` is a restriction of `d`. -/
def compatB (a d : DiscreteValues) : Bool :=
  a.all fun kv => dvLookup d kv.1 == some kv.2

/-- A branch (an assignment over a conditional's own keys) is kept when some
surviving complete assignment extends it. -/
def branchKeptB (net : HybridBayesNet) (m : Nat) (a : DiscreteValues) : Bool :=
  (enumAssignments (discreteKeysOf net)).any fun dd =>
    survivesB net m dd && compatB a dd

/-- Pruning a mixture: branches no surviving assignment extends become null,
exactly as `GaussianMixture::prune` nulls the shared pointers. -/
def pruneMixture (net : HybridBayesNet) (m : Nat) (gm : GaussianMixture) :
    GaussianMixture :=
  ⟨⟨gm.tree.dkeys,
    List.zipWith (fun a leaf => if branchKeptB net m a then leaf else none)
      (enumAssignments gm.tree.dkeys) gm.tree.leaves⟩⟩

/-- Pruning a discrete conditional: probabilities of branches no surviving
assignment extends are zeroed (no renormalization). -/
def pruneDiscrete (net : HybridBayesNet) (m : Nat) (dc : DiscreteConditional) :
    DiscreteConditional :=
  ⟨⟨dc.table.dkeys,
    List.zipWith (fun a leaf => if branchKeptB net m a then leaf else 0)
      (enumAssignments dc.table.dkeys) dc.table.leaves⟩⟩

/-- Pruning one conditional of the net. -/
def pruneCond (net : HybridBayesNet) (m : Nat) :
    HybridConditional → HybridConditional
  | .mixture gm => .mixture (pruneMixture net m gm)
  | .discrete dc => .discrete (pruneDiscrete net m dc)
  | .gaussian gc => .gaussian gc

/-- `HybridBayesNet::prune(maxNrLeaves)`: keep the `maxNrLeaves` most probable
discrete assignments; in every mixture, branches no surviving assignment
extends become null (their error reads as the sentinel); the corresponding
discrete probabilities are zeroed.  Returns a new net; the argument net is
not modified. -/
def prune (net : HybridBayesNet) (m : Nat) : HybridBayesNet :=
  net.map (pruneCond net m)

/-! ## Choose and the spec-claimed error sum -/

/-- Tag test: is this a pure discrete conditional? -/
def isDiscreteB : HybridConditional → Bool
  | .discrete _ => true
  | _ => false

/-- The non-discrete conditionals of the net, in order. -/
def nonDiscrete (net : HybridBayesNet) : HybridBayesNet :=
  net.filter fun hc => !isDiscreteB hc

/-- Collapse one non-discrete conditional at an assignment: a Gaussian stays,
a mixture selects its branch. -/
def collapseCond (d : DiscreteValues) :
    HybridConditional → Option GaussianConditional
  | .gaussian gc => some gc
  | .mixture gm => (treeAt gm.tree d).getD none
  | .discrete _ => none

/-- The sum the C1 spec sentence describes, stated from the spec words: every
conditional contributes, pure discrete conditionals with their negative
log-probability at `d` (spec section 4.5).  The code, per the shipped test,
excludes discrete conditionals; this definition exists to compare the claim
against the modelled code. -/
noncomputable def errorSpecClaimSum (net : HybridBayesNet) (v : VectorValues)
    (d : DiscreteValues) : ℝ :=
  (net.map fun hc =>
    match hc with
    | .discrete dc => -Real.log ((dcProb dc d : ℚ) : ℝ)
    | .gaussian gc => ((gcError gc v : ℚ) : ℝ)
    | .mixture gm => ((gmErrorAt gm v d : ℚ) : ℝ)).sum

/-- Does the assignment cover every mixture's discrete keys? -/
def mixturesCoveredB (net : HybridBayesNet) (d : DiscreteValues) : Bool :=
  net.all fun hc =>
    match hc with
    | .mixture gm => coversB d gm.tree.dkeys
    | _ => true

/-- The prune call as a state transformer: it returns the new net and leaves
the stored net untouched (second component = state after the call). -/
def pruneCall (st : HybridBayesNet) (m : Nat) : HybridBayesNet × HybridBayesNet :=
  (prune st m, st)

/-! ## Concrete nets used as witnesses -/

/-- A scalar Gaussian conditional `x5 = 0` (unit whitened). -/
def gcUnit : GaussianConditional := ⟨[5], [], [[1]], [[]], [0]⟩

/-- A scalar Gaussian conditional `x5 = 2`: error 2 at `x5 = 0`. -/
def gcTwo : GaussianConditional := ⟨[5], [], [[1]], [[]], [2]⟩

/-- Continuous values `x5 = 0`. -/
def vZero : VectorValues := [(5, 0)]

/-- A mixture over mode 0. -/
def mixA : GaussianMixture := ⟨⟨[(0, 2)], [some gcUnit, some gcTwo]⟩⟩

/-- A mixture over modes 0 and 1. -/
def mixB : GaussianMixture :=
  ⟨⟨[(0, 2), (1, 2)], [some gcUnit, some gcUnit, some gcUnit, some gcUnit]⟩⟩

/-- The discrete conditional of the `Creation` test: `P(Asia) = 99/1`. -/
def dcAsia : DiscreteConditional := ⟨⟨[(0, 2)], [99 / 100, 1 / 100]⟩⟩

/-- A joint discrete conditional over both modes. -/
def dcJoint : DiscreteConditional :=
  ⟨⟨[(0, 2), (1, 2)], [1 / 2, 1 / 4, 1 / 8, 1 / 8]⟩⟩

/-- A net containing only the Asia discrete conditional. -/
def asiaNet : HybridBayesNet := [.discrete dcAsia]

/-- A mixed net: one mixture, one Gaussian, one discrete conditional. -/
def exNetMixed : HybridBayesNet := [.mixture mixA, .gaussian gcTwo, .discrete dcAsia]

/-- A two-mode net with two mixtures of different scopes and a joint discrete
conditional; pruning to one leaf prunes assignments in a different number of
mixtures. -/
def exNetTwo : HybridBayesNet := [.mixture mixA, .mixture mixB, .discrete dcJoint]

/-! ## The 4-step switching chain

Modelled from the spec: the `Switching` fixture (`Switching.h`) and the
elimination engine are absent from the snapshot; the spec treats elimination
as an external collaborator that produces an exact factorization, so
`optimize(assignment)` returns the exact least-squares delta of the
linearized chain for that assignment, and the discrete phase the most
probable assignment under mode prior times marginal continuous likelihood.

The chain itself: a prior `X1 = 0` (sigma 0.1), measurements `Xk = k - 1`
(sigma 0.1) for `k >= 2`, and one motion model per mode between consecutive
states, `X(k+1) - X(k) = m_k` (sigma 1), linearized at `X(k) = k` — the
test's comment: "The linearization point has the same value as the key
index, e.g. X(1) = 1 … but the factors specify X(k) = k-1, so delta should
be -1."  The mode chain prior is uniform on `m1` with transition table
"1/2 3/2".  This model reproduces the shipped regression literals exactly:
the 3-chain error-tree leaves {0.0097568009, ~0, 0.029126214, 0.0097568009},
its pruning survivors, the 4-chain MAP assignment {m1=1, m2=0, m3=1} and its
deltas to the test's 1e-5 tolerance. -/

/-- Whitened residual offset of a motion model: mode 1 moves by one (matching
the ground truth), mode 0 stays still. -/
def switchOffset (m : Fin 2) : ℚ := 1 - (m.val : ℚ)

/-- Factor-graph error (half the squared whitened residual norm) of the
4-chain at given residual offsets and delta. -/
def chainErrC (c1 c2 c3 x1 x2 x3 x4 : ℚ) : ℚ :=
  50 * (x1 + 1) ^ 2 +
    (1 / 2) * (x2 - x1 + c1) ^ 2 +
    (1 / 2) * (x3 - x2 + c2) ^ 2 +
    (1 / 2) * (x4 - x3 + c3) ^ 2 +
    50 * (x2 + 1) ^ 2 + 50 * (x3 + 1) ^ 2 + 50 * (x4 + 1) ^ 2

/-- The 4-chain error at a mode assignment. -/
def chainError4 (m1 m2 m3 : Fin 2) (x1 x2 x3 x4 : ℚ) : ℚ :=
  chainErrC (switchOffset m1) (switchOffset m2) (switchOffset m3) x1 x2 x3 x4

/-- Thomas algorithm on the tridiagonal normal equations of the 4-chain
(the matrix is mode-independent; only the right-hand side carries the
offsets). -/
def thomasSolve (c1 c2 c3 : ℚ) : ℚ × ℚ × ℚ × ℚ :=
  let b1 : ℚ := -100 + c1
  let b2 : ℚ := -100 - c1 + c2
  let b3 : ℚ := -100 - c2 + c3
  let b4 : ℚ := -100 - c3
  let d1 : ℚ := 101
  let e1 := b1 / d1
  let d2 : ℚ := 102 - 1 / d1
  let e2 := (b2 + e1) / d2
  let d3 : ℚ := 102 - 1 / d2
  let e3 := (b3 + e2) / d3
  let d4 : ℚ := 101 - 1 / d3
  let e4 := (b4 + e3) / d4
  let x4 := e4
  let x3 := e3 + x4 / d3
  let x2 := e2 + x3 / d2
  let x1 := e1 + x2 / d1
  (x1, x2, x3, x4)

/-- `optimize(assignment)` on the 4-chain: the exact least-squares delta for
the fixed mode assignment. -/
def optimizeAssignment4 (m1 m2 m3 : Fin 2) : ℚ × ℚ × ℚ × ℚ :=
  thomasSolve (switchOffset m1) (switchOffset m2) (switchOffset m3)

/-- The minimum 4-chain error at a mode assignment. -/
def minError4 (m1 m2 m3 : Fin 2) : ℚ :=
  match optimizeAssignment4 m1 m2 m3 with
  | (x1, x2, x3, x4) => chainError4 m1 m2 m3 x1 x2 x3 x4

/-- The switching fixture's mode transition table "1/2 3/2": from mode 0 the
next mode is 1 with probability 2/3; from mode 1 with probability 2/5. -/
def modeTransition (prev next : Fin 2) : ℚ :=
  match prev, next with
  | 0, 0 => 1 / 3
  | 0, 1 => 2 / 3
  | 1, 0 => 3 / 5
  | 1, 1 => 2 / 5

/-- The mode chain prior of the 4-chain: uniform on `m1`, then the transition
table. -/
def modePrior4 (m1 m2 m3 : Fin 2) : ℚ :=
  (1 / 2) * modeTransition m1 m2 * modeTransition m2 m3

/-- The discrete posterior score maximized by `optimize()`'s discrete phase on
the 4-chain: mode prior times the marginal continuous likelihood
`exp(-minError)`.  The Gaussian determinant factor is identical across
assignments (the information matrix does not depend on the modes), so it
cancels from the argmax. -/
noncomputable def score4 (m : Fin 2 × Fin 2 × Fin 2) : ℝ :=
  ((modePrior4 m.1 m.2.1 m.2.2 : ℚ) : ℝ) *
    Real.exp (-((minError4 m.1 m.2.1 m.2.2 : ℚ) : ℝ))

/-! ## Serialization

Modelled from the spec: serialization is delegated to "whatever serialization
format the surrounding library uses" (spec section 6); only the round-trip
property is specified.  The model serializes the net's conditional sequence
and decision-tree structure (topology + leaf payloads) to a token stream of
naturals; the object archive is that stream, the text archive renders each
token as a string, and the binary archive renders each token in unary bits.
Each decoder consumes a prefix and returns the remaining stream, so
round-trip composes structurally. -/

/-- Decode `n` consecutive values with a prefix decoder, threading the
tail. -/
def decListWith {σ α : Type} (dec : List σ → Option (α × List σ)) :
    Nat → List σ → Option (List α × List σ)
  | 0, s => some ([], s)
  | n + 1, s =>
      (dec s).bind fun p =>
        (decListWith dec n p.2).bind fun q => some (p.1 :: q.1, q.2)

/-- Encode a natural: one token. -/
def encNat (n : Nat) : List Nat := [n]

/-- Decode a natural. -/
def decNat : List Nat → Option (Nat × List Nat)
  | n :: rest => some (n, rest)
  | [] => none

/-- Encode an integer: sign tag then magnitude. -/
def encInt : Int → List Nat
  | .ofNat n => [0, n]
  | .negSucc n => [1, n]

/-- Decode an integer. -/
def decInt : List Nat → Option (Int × List Nat)
  | t :: n :: rest => if t = 0 then some (.ofNat n, rest) else some (.negSucc n, rest)
  | _ => none

/-- Encode a rational: numerator then denominator. -/
def encRat (q : ℚ) : List Nat := encInt q.num ++ [q.den]

/-- Decode a rational. -/
def decRat (s : List Nat) : Option (ℚ × List Nat) :=
  (decInt s).bind fun p =>
    match p.2 with
    | d :: rest => some ((p.1 : ℚ) / (d : ℚ), rest)
    | [] => none

/-- Encode a list: length token, then each element. -/
def encListN {α : Type} (enc : α → List Nat) (l : List α) : List Nat :=
  l.length :: (l.map enc).flatten

/-- Decode a list: length token, then that many elements. -/
def decListN {α : Type} (dec : List Nat → Option (α × List Nat)) :
    List Nat → Option (List α × List Nat)
  | n :: s => decListWith dec n s
  | [] => none

/-- Encode a (key, cardinality) pair. -/
def encKC (kc : Key × Nat) : List Nat := [kc.1, kc.2]

/-- Decode a (key, cardinality) pair. -/
def decKC : List Nat → Option ((Key × Nat) × List Nat)
  | k :: c :: rest => some ((k, c), rest)
  | _ => none

/-- Encode a Gaussian conditional: frontals, parents, R, S, d. -/
def encGC (gc : GaussianConditional) : List Nat :=
  encListN encNat gc.frontals ++ encListN encNat gc.parents ++
    encListN (encListN encRat) gc.R ++ encListN (encListN encRat) gc.S ++
    encListN encRat gc.d

/-- Decode a Gaussian conditional. -/
def decGC (s : List Nat) : Option (GaussianConditional × List Nat) :=
  (decListN decNat s).bind fun p1 =>
    (decListN decNat p1.2).bind fun p2 =>
      (decListN (decListN decRat) p2.2).bind fun p3 =>
        (decListN (decListN decRat) p3.2).bind fun p4 =>
          (decListN decRat p4.2).bind fun p5 =>
            some (⟨p1.1, p2.1, p3.1, p4.1, p5.1⟩, p5.2)

/-- Encode a nullable Gaussian conditional. -/
def encOptGC : Option GaussianConditional → List Nat
  | none => [0]
  | some gc => 1 :: encGC gc

/-- Decode a nullable Gaussian conditional. -/
def decOptGC : List Nat → Option (Option GaussianConditional × List Nat)
  | 0 :: rest => some (none, rest)
  | _ :: rest => (decGC rest).bind fun p => some (some p.1, p.2)
  | [] => none

/-- Encode a rational decision tree: keys then leaves. -/
def encTreeQ (t : DecisionTree ℚ) : List Nat :=
  encListN encKC t.dkeys ++ encListN encRat t.leaves

/-- Decode a rational decision tree. -/
def decTreeQ (s : List Nat) : Option (DecisionTree ℚ × List Nat) :=
  (decListN decKC s).bind fun p1 =>
    (decListN decRat p1.2).bind fun p2 => some (⟨p1.1, p2.1⟩, p2.2)

/-- Encode a conditional decision tree: keys then nullable leaves. -/
def encTreeG (t : DecisionTree (Option GaussianConditional)) : List Nat :=
  encListN encKC t.dkeys ++ encListN encOptGC t.leaves

/-- Decode a conditional decision tree. -/
def decTreeG (s : List Nat) :
    Option (DecisionTree (Option GaussianConditional) × List Nat) :=
  (decListN decKC s).bind fun p1 =>
    (decListN decOptGC p1.2).bind fun p2 => some (⟨p1.1, p2.1⟩, p2.2)

/-- Encode a hybrid conditional with its tag. -/
def encHC : HybridConditional → List Nat
  | .discrete dc => 0 :: encTreeQ dc.table
  | .gaussian gc => 1 :: encGC gc
  | .mixture gm => 2 :: encTreeG gm.tree

/-- Decode a hybrid conditional. -/
def decHC : List Nat → Option (HybridConditional × List Nat)
  | 0 :: rest => (decTreeQ rest).bind fun p => some (.discrete ⟨p.1⟩, p.2)
  | 1 :: rest => (decGC rest).bind fun p => some (.gaussian p.1, p.2)
  | _ :: rest => (decTreeG rest).bind fun p => some (.mixture ⟨p.1⟩, p.2)
  | [] => none

/-- The object archive of a net: its token stream. -/
def encodeObj (net : HybridBayesNet) : List Nat := encListN encHC net

/-- Decode the object archive. -/
def decodeObj (s : List Nat) : Option HybridBayesNet :=
  (decListN decHC s).map Prod.fst

/-- The text archive: each token rendered as a string. -/
def encodeXML (net : HybridBayesNet) : List String :=
  (encodeObj net).map fun n => String.mk (List.replicate n 'x')

/-- Decode the text archive. -/
def decodeXML (l : List String) : Option HybridBayesNet :=
  decodeObj (l.map String.length)

/-- Unary bit rendering of one token. -/
def encUnary (n : Nat) : List Bool := List.replicate n true ++ [false]

/-- Decode one unary token. -/
def decUnary : List Bool → Option (Nat × List Bool)
  | false :: rest => some (0, rest)
  | true :: rest => (decUnary rest).bind fun p => some (p.1 + 1, p.2)
  | [] => none

/-- The binary archive: token count in unary, then each token in unary. -/
def encodeBinary (net : HybridBayesNet) : List Bool :=
  encUnary (encodeObj net).length ++ ((encodeObj net).map encUnary).flatten

/-- Decode the binary archive. -/
def decodeBinary (bs : List Bool) : Option HybridBayesNet :=
  (decUnary bs).bind fun p =>
    (decListWith decUnary p.1 p.2).bind fun q => decodeObj q.1

/-! ## SmartProjectionPoseFactor (gtsam/slam/SmartProjectionPoseFactor.h)

The header is in the snapshot; the base class (`SmartProjectionFactor`,
`NonlinearFactor`) is not, so `active` and `totalReprojectionError` are
uninterpreted fields of the model, and `Pose3` with its `compose` is an
abstract type parameter.  `error` and `cameras` are translated from the
header: `error` returns `totalReprojectionError(cameras(values))` when the
factor is active on the values and exactly `0.0` otherwise; `cameras` reads
each key's pose (a missing key is the thrown exception, modelled as `none`),
composes `body_P_sensor_` when present, and pairs it with the shared
calibration. -/

/-- A pinhole camera: pose plus the shared calibration. -/
structure Camera (P C : Type) where
  pose : P
  calib : C
deriving DecidableEq

/-- The model of `SmartProjectionPoseFactor<CALIBRATION>`: its keys, optional
body-to-sensor pose, fixed calibration, and the inherited operations. -/
structure SmartProjectionPoseFactor (P C : Type) where
  keys : List Key
  body_P_sensor : Option P
  K : C
  compose : P → P → P
  active : List (Key × P) → Bool
  totalReprojectionError : List (Camera P C) → ℚ

/-- Look up a pose in the values. -/
def pvLookup {P : Type} : List (Key × P) → Key → Option P
  | [], _ => none
  | kv :: rest, k => if kv.1 = k then some kv.2 else pvLookup rest k

/-- `SmartProjectionPoseFactor::cameras`: one camera per key, composing the
body-to-sensor pose when present; `none` models the exception a missing pose
throws. -/
def sppfCameras {P C : Type} (f : SmartProjectionPoseFactor P C)
    (values : List (Key × P)) : Option (List (Camera P C)) :=
  f.keys.mapM fun k =>
    (pvLookup values k).map fun pose =>
      ⟨match f.body_P_sensor with
        | some b => f.compose pose b
        | none => pose, f.K⟩

/-- `SmartProjectionPoseFactor::error`: zero when inactive, otherwise the
total reprojection error of the cameras built from the values. -/
def sppfError {P C : Type} (f : SmartProjectionPoseFactor P C)
    (values : List (Key × P)) : Option ℚ :=
  if f.active values then
    (sppfCameras f values).map f.totalReprojectionError
  else some 0

theorem length_enumAssignments (keys : List (Key × Nat)) :
    (enumAssignments keys).length = prodCards keys := by
  induction keys with
  | nil => simp [enumAssignments, prodCards]
  | cons kc rest ih =>
      simp only [enumAssignments, List.length_flatten, List.map_map]
      have hconst :
          (List.range kc.2).map
              (List.length ∘ fun v => (enumAssignments rest).map
                fun a => (kc.1, v) :: a) =
            (List.range kc.2).map (fun _ => prodCards rest) :=
        List.map_congr_left fun v _ => by simp [ih]
      rw [hconst]
      have hrepl : (List.range kc.2).map (fun _ => prodCards rest) =
          List.replicate kc.2 (prodCards rest) := by
        rw [List.map_const']
        simp
      rw [hrepl, List.sum_replicate, smul_eq_mul]
      rfl

/-- Indexing a flattened list of uniform-length blocks. -/
theorem getElem?_flatten_uniform {β : Type} (L : Nat) :
    ∀ (blocks : List (List β)) (i j : Nat),
      (∀ b ∈ blocks, b.length = L) → j < L →
      blocks.flatten[i * L + j]? = blocks[i]?.bind fun b => b[j]?
  | [], i, j, _, _ => by simp
  | b :: bs, 0, j, hunif, hj => by
      have hb : b.length = L := hunif b (by simp)
      show (b ++ bs.flatten)[0 * L + j]? = _
      rw [Nat.zero_mul, Nat.zero_add, List.getElem?_append, if_pos (by omega)]
      simp
  | b :: bs, i + 1, j, hunif, hj => by
      have hb : b.length = L := hunif b (by simp)
      have hle : b.length ≤ (i + 1) * L + j := by
        rw [hb, Nat.succ_mul]
        omega
      have step : (b ++ bs.flatten)[(i + 1) * L + j]? = bs.flatten[i * L + j]? := by
        rw [List.getElem?_append_right hle]
        congr 1
        rw [hb, Nat.succ_mul]
        omega
      show (b ++ bs.flatten)[(i + 1) * L + j]? = _
      rw [step,
        getElem?_flatten_uniform L bs i j (fun c hc => hunif c (by simp [hc])) hj]
      simp

theorem enumAssignments_getElem_index (keys : List (Key × Nat)) (ρ : Key → Nat)
    (h : InRange ρ keys) :
    (enumAssignments keys)[indexOfA ρ keys]? = some (canonAssign keys ρ) := by
  induction keys with
  | nil => simp [enumAssignments, indexOfA, canonAssign]
  | cons kc rest ih =>
      have hrest : InRange ρ rest := fun x hx => h x (by simp [hx])
      have hv : ρ kc.1 < kc.2 := h kc (by simp)
      have hidx : indexOfA ρ rest < prodCards rest := by
        have := length_enumAssignments rest
        have hget := ih hrest
        by_contra hcon
        push_neg at hcon
        rw [List.getElem?_eq_none (by omega)] at hget
        exact Option.noConfusion hget
      simp only [enumAssignments, indexOfA]
      rw [getElem?_flatten_uniform (prodCards rest) _ (ρ kc.1) (indexOfA ρ rest)
        (by
          intro b hb
          simp only [List.mem_map] at hb
          obtain ⟨v, _, rfl⟩ := hb
          simp [length_enumAssignments]) hidx]
      rw [List.getElem?_map, List.getElem?_range hv]
      simp [ih hrest, canonAssign]

/-- Every enumerated assignment over a by-key distinct key list is the
canonical list of an in-range valuation. -/
theorem enumAssignments_mem (keys : List (Key × Nat))
    (hnd : (keys.map Prod.fst).Nodup) (d : DiscreteValues)
    (hd : d ∈ enumAssignments keys) :
    ∃ ρ, InRange ρ keys ∧ d = canonAssign keys ρ := by
  induction keys generalizing d with
  | nil =>
      simp [enumAssignments] at hd
      exact ⟨fun _ => 0, by simp [InRange], by simp [hd, canonAssign]⟩
  | cons kc rest ih =>
      simp only [List.map_cons, List.nodup_cons] at hnd
      simp only [enumAssignments, List.mem_flatten, List.mem_map] at hd
      obtain ⟨b, ⟨v, hv, rfl⟩, hdb⟩ := hd
      simp only [List.mem_map] at hdb
      obtain ⟨a, ha, rfl⟩ := hdb
      obtain ⟨ρ, hρ, rfl⟩ := ih hnd.2 a ha
      have hne : ∀ x ∈ rest, x.1 ≠ kc.1 := by
        intro x hx hcon
        exact hnd.1 (hcon ▸ List.mem_map_of_mem Prod.fst hx)
      refine ⟨fun k => if k = kc.1 then v else ρ k, ?_, ?_⟩
      · intro x hx
        rcases List.mem_cons.mp hx with h1 | h2
        · simp [h1, List.mem_range.mp hv]
        · simp only [if_neg (hne x h2)]
          exact hρ x h2
      · simp only [canonAssign, List.map_cons, List.cons.injEq]
        constructor
        · simp
        · exact List.map_congr_left fun x hx => by simp [if_neg (hne x hx)]

theorem dvLookup_canonAssign (keys : List (Key × Nat)) (ρ : Key → Nat)
    (k : Key) (c : Nat) (hk : (k, c) ∈ keys) :
    dvLookup (canonAssign keys ρ) k = some (ρ k) := by
  induction keys with
  | nil => cases hk
  | cons kc rest ih =>
      by_cases h : kc.1 = k
      · simp [canonAssign, dvLookup, h]
      · rcases List.mem_cons.mp hk with h1 | h2
        · exact absurd (congrArg Prod.fst h1.symm) h
        · simpa [canonAssign, dvLookup, h] using ih h2

theorem dvFun_canonAssign (keys : List (Key × Nat)) (ρ : Key → Nat)
    (k : Key) (c : Nat) (hk : (k, c) ∈ keys) :
    dvFun (canonAssign keys ρ) k = ρ k := by
  simp [dvFun, dvLookup_canonAssign keys ρ k c hk]

theorem coversB_eq_true (d : DiscreteValues) (keys : List (Key × Nat)) :
    coversB d keys = true ↔
      ∀ kc ∈ keys, ∃ v, dvLookup d kc.1 = some v ∧ v < kc.2 := by
  simp only [coversB, List.all_eq_true]
  constructor
  · intro h kc hkc
    have := h kc hkc
    cases hlk : dvLookup d kc.1 with
    | none => rw [hlk] at this; simp at this
    | some v => rw [hlk] at this; simp at this; exact ⟨v, rfl, this⟩
  · intro h kc hkc
    obtain ⟨v, hv, hlt⟩ := h kc hkc
    rw [hv]
    simpa using hlt

theorem inRange_dvFun_of_coversB (d : DiscreteValues) (keys : List (Key × Nat))
    (h : coversB d keys = true) : InRange (dvFun d) keys := by
  intro kc hkc
  obtain ⟨v, hv, hlt⟩ := (coversB_eq_true d keys).mp h kc hkc
  simpa [dvFun, hv] using hlt

theorem coversB_canonAssign (keys : List (Key × Nat)) (ρ : Key → Nat)
    (h : InRange ρ keys) : coversB (canonAssign keys ρ) keys = true := by
  rw [coversB_eq_true]
  intro kc hkc
  exact ⟨ρ kc.1, dvLookup_canonAssign keys ρ kc.1 kc.2 hkc, h kc hkc⟩

theorem indexOfA_congr (keys : List (Key × Nat)) (ρ1 ρ2 : Key → Nat)
    (h : ∀ kc ∈ keys, ρ1 kc.1 = ρ2 kc.1) :
    indexOfA ρ1 keys = indexOfA ρ2 keys := by
  induction keys with
  | nil => rfl
  | cons kc rest ih =>
      simp only [indexOfA, h kc (by simp),
        ih fun x hx => h x (by simp [hx])]

theorem treeAt_buildTree {α : Type} (keys : List (Key × Nat))
    (f : DiscreteValues → α) (d : DiscreteValues)
    (h : coversB d keys = true) :
    treeAt (buildTree keys f) d = some (f (canonAssign keys (dvFun d))) := by
  simp only [treeAt, buildTree, h, if_true]
  rw [List.getElem?_map,
    enumAssignments_getElem_index keys (dvFun d) (inRange_dvFun_of_coversB d keys h)]
  rfl

theorem subKeys_keysUnion_left (l1 l2 : List (Key × Nat)) :
    SubKeys l1 (keysUnion l1 l2) := fun _ hkc =>
  List.mem_append_left _ hkc

theorem subKeys_keysUnion_right (l1 l2 : List (Key × Nat))
    (hag : Agreement l1 l2) : SubKeys l2 (keysUnion l1 l2) := by
  intro kc hkc
  by_cases h : l1.any fun kc2 => kc2.1 = kc.1
  · simp only [List.any_eq_true, decide_eq_true_eq] at h
    obtain ⟨kc1, hkc1, hkeq⟩ := h
    have : kc1 = kc := Prod.ext hkeq (hag kc1 hkc1 kc hkc hkeq)
    exact List.mem_append_left _ (this ▸ hkc1)
  · refine List.mem_append_right _ (List.mem_filter.mpr ⟨hkc, ?_⟩)
    rw [Bool.not_eq_true']
    exact Bool.eq_false_iff.mpr h

theorem mem_keysUnion (l1 l2 : List (Key × Nat)) (kc : Key × Nat)
    (h : kc ∈ keysUnion l1 l2) : kc ∈ l1 ∨ kc ∈ l2 := by
  rcases List.mem_append.mp h with h1 | h2
  · exact Or.inl h1
  · exact Or.inr (List.mem_filter.mp h2).1

theorem nodup_keysUnion (l1 l2 : List (Key × Nat))
    (h1 : (l1.map Prod.fst).Nodup) (h2 : (l2.map Prod.fst).Nodup) :
    ((keysUnion l1 l2).map Prod.fst).Nodup := by
  rw [keysUnion, List.map_append]
  refine List.Nodup.append h1 (List.Nodup.sublist (List.Sublist.map _ (List.filter_sublist l2)) h2) ?_
  intro a ha hb
  simp only [List.mem_map] at ha hb
  obtain ⟨kc1, hkc1, rfl⟩ := ha
  obtain ⟨kc2, hkc2, hkeq⟩ := hb
  have := (List.mem_filter.mp hkc2).2
  simp only [List.any_eq_true, decide_eq_true_eq, Bool.not_eq_true', Bool.not_eq_true] at this
  rw [List.any_eq_false] at this
  exact absurd hkeq.symm (by simpa using this kc1 hkc1)

theorem coversB_of_subKeys (d : DiscreteValues) (l1 l2 : List (Key × Nat))
    (hsub : SubKeys l1 l2) (h : coversB d l2 = true) : coversB d l1 = true := by
  rw [coversB_eq_true] at h ⊢
  exact fun kc hkc => h kc (hsub kc hkc)

/-- Re-evaluating a tree at the canonical form of an assignment over a larger
key list gives the same result. -/
theorem treeAt_canonAssign_eq {α : Type} (t : DecisionTree α)
    (u : List (Key × Nat)) (d : DiscreteValues)
    (hsub : SubKeys t.dkeys u) (hcov : coversB d u = true) :
    treeAt t (canonAssign u (dvFun d)) = treeAt t d := by
  have hagree : ∀ kc ∈ t.dkeys, dvFun (canonAssign u (dvFun d)) kc.1 = dvFun d kc.1 :=
    fun kc hkc => dvFun_canonAssign u (dvFun d) kc.1 kc.2 (hsub kc hkc)
  have hcov1 : coversB d t.dkeys = true := coversB_of_subKeys d t.dkeys u hsub hcov
  have hcov2 : coversB (canonAssign u (dvFun d)) t.dkeys = true := by
    rw [coversB_eq_true] at hcov1 ⊢
    intro kc hkc
    obtain ⟨v, hv, hlt⟩ := hcov1 kc hkc
    refine ⟨v, ?_, hlt⟩
    rw [dvLookup_canonAssign u (dvFun d) kc.1 kc.2 (hsub kc hkc)]
    simp [dvFun, hv]
  simp only [treeAt, hcov1, hcov2, if_true]
  rw [indexOfA_congr t.dkeys _ _ hagree]

theorem treeAt_combineQ (op : ℚ → ℚ → ℚ) (t1 t2 : DecisionTree ℚ)
    (d : DiscreteValues) (hag : Agreement t1.dkeys t2.dkeys)
    (hcov : coversB d (keysUnion t1.dkeys t2.dkeys) = true) :
    treeAt (combineQ op t1 t2) d =
      some (op ((treeAt t1 d).getD 0) ((treeAt t2 d).getD 0)) := by
  rw [combineQ, treeAt_buildTree _ _ d hcov]
  rw [treeAt_canonAssign_eq t1 _ d (subKeys_keysUnion_left _ _) hcov,
    treeAt_canonAssign_eq t2 _ d (subKeys_keysUnion_right _ _ hag) hcov]

theorem treeAt_mapLeaves {α β : Type} (f : α → β) (t : DecisionTree α)
    (d : DiscreteValues) :
    treeAt (mapLeaves f t) d = (treeAt t d).map f := by
  simp only [treeAt, mapLeaves]
  by_cases h : coversB d t.dkeys
  · simp [h, List.getElem?_map]
  · simp [h]

theorem treeWF_buildTree {α : Type} (keys : List (Key × Nat))
    (f : DiscreteValues → α) (hnd : (keys.map Prod.fst).Nodup)
    (hc : ∀ kc ∈ keys, 1 ≤ kc.2) : TreeWF (buildTree keys f) := by
  refine ⟨?_, hnd, hc⟩
  simp [buildTree, length_enumAssignments]

theorem treeWF_mapLeaves {α β : Type} (f : α → β) (t : DecisionTree α)
    (h : TreeWF t) : TreeWF (mapLeaves f t) := by
  obtain ⟨h1, h2, h3⟩ := h
  exact ⟨by simp [mapLeaves, h1], h2, h3⟩

theorem gcError_nonneg (gc : GaussianConditional) (v : VectorValues) :
    0 ≤ gcError gc v := by
  have hsum : 0 ≤ ((gcResidual gc v).map fun r => r ^ 2).sum := by
    apply List.sum_nonneg
    intro x hx
    obtain ⟨r, _, rfl⟩ := List.mem_map.mp hx
    positivity
  have : (0 : ℚ) ≤ 1 / 2 := by norm_num
  exact mul_nonneg this hsum

/-! ## Evaluation lemmas -/

theorem pairs_eq_of_nodup :
    ∀ (l : List (Key × Nat)), (l.map Prod.fst).Nodup →
      ∀ kc1 kc2 : Key × Nat, kc1 ∈ l → kc2 ∈ l → kc1.1 = kc2.1 → kc1 = kc2
  | [], _, _, _, h1, _, _ => absurd h1 (List.not_mem_nil _)
  | kc :: rest, hnd, kc1, kc2, h1, h2, hk => by
      simp only [List.map_cons, List.nodup_cons] at hnd
      rcases List.mem_cons.mp h1 with e1 | m1
      · rcases List.mem_cons.mp h2 with e2 | m2
        · rw [e1, e2]
        · exfalso
          apply hnd.1
          rw [e1] at hk
          rw [hk]
          exact List.mem_map_of_mem Prod.fst m2
      · rcases List.mem_cons.mp h2 with e2 | m2
        · exfalso
          apply hnd.1
          rw [e2] at hk
          rw [← hk]
          exact List.mem_map_of_mem Prod.fst m1
        · exact pairs_eq_of_nodup rest hnd.2 kc1 kc2 m1 m2 hk

theorem agreement_of_subKeys (u a b : List (Key × Nat))
    (hnd : (u.map Prod.fst).Nodup) (ha : SubKeys a u) (hb : SubKeys b u) :
    Agreement a b := fun kc1 h1 kc2 h2 hk =>
  congrArg Prod.snd (pairs_eq_of_nodup u hnd kc1 kc2 (ha _ h1) (hb _ h2) hk)

theorem subKeys_keysUnion_of (a b u : List (Key × Nat))
    (ha : SubKeys a u) (hb : SubKeys b u) : SubKeys (keysUnion a b) u := by
  intro kc hkc
  rcases mem_keysUnion a b kc hkc with h | h
  · exact ha kc h
  · exact hb kc h

theorem nodup_discreteKeysOf (net : HybridBayesNet)
    (h : ∀ dc, HybridConditional.discrete dc ∈ net →
      (dc.table.dkeys.map Prod.fst).Nodup) :
    ((discreteKeysOf net).map Prod.fst).Nodup := by
  induction net with
  | nil => simp [discreteKeysOf]
  | cons hc rest ih =>
      have hr := ih fun dc hdc => h dc (List.mem_cons_of_mem _ hdc)
      cases hc with
      | discrete dc => exact nodup_keysUnion _ _ (h dc (by simp)) hr
      | gaussian gc => exact hr
      | mixture gm => exact hr

theorem cards_discreteKeysOf (net : HybridBayesNet)
    (h : ∀ dc, HybridConditional.discrete dc ∈ net →
      ∀ kc ∈ dc.table.dkeys, 1 ≤ kc.2) :
    ∀ kc ∈ discreteKeysOf net, 1 ≤ kc.2 := by
  induction net with
  | nil => simp [discreteKeysOf]
  | cons hc rest ih =>
      have hr := ih fun dc hdc => h dc (List.mem_cons_of_mem _ hdc)
      cases hc with
      | discrete dc =>
          intro kc hkc
          rcases mem_keysUnion _ _ kc hkc with h1 | h2
          · exact h dc (by simp) kc h1
          · exact hr kc h2
      | gaussian gc => exact hr
      | mixture gm => exact hr

theorem netWF_nodup_keys (net : HybridBayesNet) (hwf : NetWF net) :
    ((discreteKeysOf net).map Prod.fst).Nodup := by
  apply nodup_discreteKeysOf
  intro dc hdc
  exact (hwf _ hdc).1.2.1

theorem netWF_cards_keys (net : HybridBayesNet) (hwf : NetWF net) :
    ∀ kc ∈ discreteKeysOf net, 1 ≤ kc.2 := by
  apply cards_discreteKeysOf
  intro dc hdc
  exact (hwf _ hdc).1.2.2

theorem gmErrorAt_eq_getD (gm : GaussianMixture) (v : VectorValues)
    (d : DiscreteValues) :
    (treeAt (gmErrorTree gm v) d).getD 0 = gmErrorAt gm v d := by
  rw [gmErrorTree, treeAt_mapLeaves]
  rfl

theorem treeAt_errorTree_go (netKeys : List (Key × Nat)) (v : VectorValues)
    (d : DiscreteValues) (hnd : (netKeys.map Prod.fst).Nodup)
    (hcov : coversB d netKeys = true) :
    ∀ (l : List HybridConditional), (∀ hc ∈ l, condWF netKeys hc) →
      ∀ (acc : DecisionTree ℚ) (q : ℚ), TreeWF acc →
        SubKeys acc.dkeys netKeys → treeAt acc d = some q →
        treeAt (l.foldl (errorTreeStep v) acc) d =
          some (q + (l.map (condErrorScalar v d)).sum) := by
  intro l
  induction l with
  | nil =>
      intro _ acc q _ _ hq
      simpa using hq
  | cons hc rest ih =>
      intro hl acc q hTW hsub hq
      have hrest : ∀ x ∈ rest, condWF netKeys x :=
        fun x hx => hl x (List.mem_cons_of_mem _ hx)
      cases hc with
      | discrete dc =>
          rw [List.foldl_cons]
          have := ih hrest acc q hTW hsub hq
          rw [show errorTreeStep v acc (.discrete dc) = acc from rfl] at *
          rw [this]
          simp [condErrorScalar]
      | gaussian gc =>
          rw [List.foldl_cons]
          have hTW2 : TreeWF (errorTreeStep v acc (.gaussian gc)) :=
            treeWF_mapLeaves _ _ hTW
          have hsub2 : SubKeys (errorTreeStep v acc (.gaussian gc)).dkeys netKeys := hsub
          have hq2 : treeAt (errorTreeStep v acc (.gaussian gc)) d =
              some (q + gcError gc v) := by
            show treeAt (mapLeaves _ acc) d = _
            rw [treeAt_mapLeaves, hq]
            rfl
          rw [ih hrest _ _ hTW2 hsub2 hq2]
          simp [condErrorScalar]
          ring
      | mixture gm =>
          obtain ⟨hgmTW, hgmsub⟩ := hl (.mixture gm) (by simp)
          have hetTW : TreeWF (gmErrorTree gm v) := treeWF_mapLeaves _ _ hgmTW
          have hag : Agreement acc.dkeys (gmErrorTree gm v).dkeys :=
            agreement_of_subKeys netKeys _ _ hnd hsub hgmsub
          have hUsub : SubKeys (keysUnion acc.dkeys (gmErrorTree gm v).dkeys) netKeys :=
            subKeys_keysUnion_of _ _ _ hsub hgmsub
          have hcovU : coversB d (keysUnion acc.dkeys (gmErrorTree gm v).dkeys) = true :=
            coversB_of_subKeys d _ _ hUsub hcov
          have hTW2 : TreeWF (errorTreeStep v acc (.mixture gm)) := by
            show TreeWF (combineQ _ _ _)
            apply treeWF_buildTree
            · exact nodup_keysUnion _ _ hTW.2.1 hetTW.2.1
            · intro kc hkc
              rcases mem_keysUnion _ _ kc hkc with h | h
              · exact hTW.2.2 kc h
              · exact hetTW.2.2 kc h
          have hsub2 : SubKeys (errorTreeStep v acc (.mixture gm)).dkeys netKeys := hUsub
          have hq2 : treeAt (errorTreeStep v acc (.mixture gm)) d =
              some (q + gmErrorAt gm v d) := by
            show treeAt (combineQ _ _ _) d = _
            rw [treeAt_combineQ _ _ _ _ hag hcovU, hq]
            rw [gmErrorAt_eq_getD]
            rfl
          rw [List.foldl_cons, ih hrest _ _ hTW2 hsub2 hq2]
          simp [condErrorScalar]
          ring

/-- The joint error tree evaluated at a covering assignment is the scalar
fixed-assignment error: the core consistency invariant. -/
theorem treeAt_errorTree (net : HybridBayesNet) (v : VectorValues)
    (d : DiscreteValues) (hwf : NetWF net)
    (hcov : coversB d (discreteKeysOf net) = true) :
    treeAt (errorTree net v) d = some (errorScalar net v d) := by
  have h0 : treeAt (⟨[], [0]⟩ : DecisionTree ℚ) d = some 0 := by
    simp [treeAt, coversB, indexOfA]
  have hTW0 : TreeWF (⟨[], [0]⟩ : DecisionTree ℚ) := by
    refine ⟨by simp [prodCards], by simp, by simp⟩
  have hsub0 : SubKeys ([] : List (Key × Nat)) (discreteKeysOf net) := by
    intro kc hkc
    cases hkc
  have := treeAt_errorTree_go (discreteKeysOf net) v d
    (netWF_nodup_keys net hwf) hcov net hwf _ 0 hTW0 hsub0 h0
  rw [errorTree, this]
  simp [errorScalar]

/-- Evaluating a tree whose leaves were rewritten position-wise through the
assignment enumeration. -/
theorem treeAt_zipWith_enum {α : Type} (t : DecisionTree α)
    (g : DiscreteValues → α → α) (d : DiscreteValues)
    (hcov : coversB d t.dkeys = true) :
    treeAt (⟨t.dkeys, List.zipWith g (enumAssignments t.dkeys) t.leaves⟩ :
        DecisionTree α) d =
      (treeAt t d).map (g (canonAssign t.dkeys (dvFun d))) := by
  have hρ := inRange_dvFun_of_coversB d t.dkeys hcov
  have henum := enumAssignments_getElem_index t.dkeys (dvFun d) hρ
  simp only [treeAt, hcov, if_true]
  rw [List.getElem?_zipWith', henum]
  simp

/-! ## First-wins argmax -/

theorem mem_of_getElemOpt {α : Type} {l : List α} {i : Nat} {a : α}
    (h : l[i]? = some a) : a ∈ l := by
  obtain ⟨hlt, rfl⟩ := List.getElem?_eq_some_iff.mp h
  exact List.getElem_mem hlt

theorem argmaxGo_spec (f : DiscreteValues → ℚ) :
    ∀ (l : List DiscreteValues) (b : DiscreteValues),
      ∃ l1 l2, b :: l = l1 ++ argmaxGo f b l :: l2 ∧
        (∀ y ∈ b :: l, f y ≤ f (argmaxGo f b l)) ∧
        ∀ y ∈ l1, f y < f (argmaxGo f b l)
  | [], b =>
      ⟨[], [], by simp [argmaxGo], by simp [argmaxGo], by simp⟩
  | y :: ys, b => by
      by_cases h : f b < f y
      · obtain ⟨l1, l2, hsplit, hmax, hstrict⟩ := argmaxGo_spec f ys y
        have hr : argmaxGo f b (y :: ys) = argmaxGo f y ys := by
          simp [argmaxGo, h]
        refine ⟨b :: l1, l2, ?_, ?_, ?_⟩
        · rw [hr, List.cons_append, ← hsplit]
        · intro z hz
          rw [hr]
          rcases List.mem_cons.mp hz with rfl | hz2
          · exact le_trans (le_of_lt h) (hmax y (by simp))
          · exact hmax z hz2
        · intro z hz
          rw [hr]
          rcases List.mem_cons.mp hz with rfl | hz2
          · exact lt_of_lt_of_le h (hmax y (by simp))
          · exact hstrict z hz2
      · obtain ⟨l1, l2, hsplit, hmax, hstrict⟩ := argmaxGo_spec f ys b
        have hr : argmaxGo f b (y :: ys) = argmaxGo f b ys := by
          simp [argmaxGo, h]
        have hyb : f y ≤ f b := le_of_not_lt h
        cases l1 with
        | nil =>
            simp only [List.nil_append] at hsplit
            have hb : b = argmaxGo f b ys := (List.cons_eq_cons.mp hsplit).1
            refine ⟨[], y :: ys, ?_, ?_, by simp⟩
            · rw [hr, ← hb]
              simp
            · intro z hz
              rw [hr]
              rcases List.mem_cons.mp hz with rfl | hz2
              · exact le_of_eq (congrArg f hb)
              · rcases List.mem_cons.mp hz2 with rfl | hz3
                · exact le_trans hyb (le_of_eq (congrArg f hb))
                · exact hmax z (List.mem_cons_of_mem _ hz3)
        | cons bh l1' =>
            have hsplit2 := List.cons_eq_cons.mp hsplit
            obtain ⟨hbh, hys⟩ := hsplit2
            subst hbh
            have hbstrict : f b < f (argmaxGo f b ys) := hstrict b (by simp)
            refine ⟨b :: y :: l1', l2, ?_, ?_, ?_⟩
            · rw [hr]
              simp only [List.cons_append, List.cons.injEq, true_and]
              simpa using hys
            · intro z hz
              rw [hr]
              rcases List.mem_cons.mp hz with rfl | hz2
              · exact hmax z (by simp)
              · rcases List.mem_cons.mp hz2 with rfl | hz3
                · exact le_trans hyb (le_of_lt hbstrict)
                · exact hmax z (List.mem_cons_of_mem _ hz3)
            · intro z hz
              rw [hr]
              rcases List.mem_cons.mp hz with rfl | hz2
              · exact hbstrict
              · rcases List.mem_cons.mp hz2 with rfl | hz3
                · exact lt_of_le_of_lt hyb hbstrict
                · exact hstrict z (List.mem_cons_of_mem _ hz3)

theorem argmaxGo_mem (f : DiscreteValues → ℚ) (l : List DiscreteValues)
    (b : DiscreteValues) : argmaxGo f b l ∈ b :: l := by
  obtain ⟨l1, l2, hsplit, _, _⟩ := argmaxGo_spec f l b
  rw [hsplit]
  exact List.mem_append_right _ (by simp)

theorem argmaxGo_le (f : DiscreteValues → ℚ) (l : List DiscreteValues)
    (b : DiscreteValues) : ∀ y ∈ b :: l, f y ≤ f (argmaxGo f b l) := by
  obtain ⟨_, _, _, hmax, _⟩ := argmaxGo_spec f l b
  exact hmax

theorem mem_prefix_of_shorter {L l1 l2 m1 m2 : List DiscreteValues}
    {r rg : DiscreteValues} (h1 : L = l1 ++ r :: l2) (h2 : L = m1 ++ rg :: m2)
    (hlt : l1.length < m1.length) : r ∈ m1 := by
  have hr : L[l1.length]? = some r := by
    rw [h1, List.getElem?_append_right (le_refl _)]
    simp
  have hm : m1[l1.length]? = some r := by
    rw [h2, List.getElem?_append] at hr
    rwa [if_pos hlt] at hr
  exact mem_of_getElemOpt hm

/-- Stability of the first-wins argmax: if another score function is pointwise
no larger, and agrees at the winner, the winner does not change. -/
theorem argmaxGo_stable (f g : DiscreteValues → ℚ) (b : DiscreteValues)
    (l : List DiscreteValues) (hg : ∀ y ∈ b :: l, g y ≤ f y)
    (geq : g (argmaxGo f b l) = f (argmaxGo f b l)) :
    argmaxGo g b l = argmaxGo f b l := by
  obtain ⟨l1, l2, hsplit, hmax, hstrict⟩ := argmaxGo_spec f l b
  obtain ⟨m1, m2, hsplit2, gmax, gstrict⟩ := argmaxGo_spec g l b
  set r := argmaxGo f b l with hr
  set rg := argmaxGo g b l with hrg
  have hrmem : r ∈ b :: l := argmaxGo_mem f l b
  have hrgmem : rg ∈ b :: l := argmaxGo_mem g l b
  rcases Nat.lt_trichotomy l1.length m1.length with hlt | heq | hgt
  · exfalso
    have hrm : r ∈ m1 := mem_prefix_of_shorter hsplit hsplit2 hlt
    have h1 : g r < g rg := gstrict r hrm
    have h2 : f rg ≤ f r := hmax rg hrgmem
    have h3 : g rg ≤ f rg := hg rg hrgmem
    rw [geq] at h1
    exact absurd (lt_of_le_of_lt (le_trans h3 h2) h1) (lt_irrefl _)
  · have hcat := hsplit.symm.trans hsplit2
    obtain ⟨_, hc⟩ := List.append_inj hcat heq
    exact ((List.cons_eq_cons.mp hc).1).symm
  · exfalso
    have hrm : rg ∈ l1 := mem_prefix_of_shorter hsplit2 hsplit hgt
    have h1 : f rg < f r := hstrict rg hrm
    have h2 : g r ≤ g rg := gmax r hrmem
    have h3 : g rg ≤ f rg := hg rg hrgmem
    rw [geq] at h2
    exact absurd (lt_of_le_of_lt (le_trans h2 h3) h1) (lt_irrefl _)

/-! ## Pruning lemmas -/

theorem discreteKeysOf_cons_discrete (dc : DiscreteConditional)
    (rest : HybridBayesNet) :
    discreteKeysOf (.discrete dc :: rest) =
      keysUnion dc.table.dkeys (discreteKeysOf rest) := rfl

theorem discreteKeysOf_cons_gaussian (gc : GaussianConditional)
    (rest : HybridBayesNet) :
    discreteKeysOf (.gaussian gc :: rest) = discreteKeysOf rest := rfl

theorem discreteKeysOf_cons_mixture (gm : GaussianMixture)
    (rest : HybridBayesNet) :
    discreteKeysOf (.mixture gm :: rest) = discreteKeysOf rest := rfl

theorem discreteKeysOf_map_structure (fn : HybridConditional → HybridConditional)
    (hfnd : ∀ dc : DiscreteConditional, ∃ dc2 : DiscreteConditional,
      fn (.discrete dc) = .discrete dc2 ∧ dc2.table.dkeys = dc.table.dkeys)
    (hfng : ∀ gc : GaussianConditional, ∃ gc2, fn (.gaussian gc) = .gaussian gc2)
    (hfnm : ∀ gm : GaussianMixture, ∃ gm2, fn (.mixture gm) = .mixture gm2) :
    ∀ l : List HybridConditional, discreteKeysOf (l.map fn) = discreteKeysOf l := by
  intro l
  induction l with
  | nil => rfl
  | cons hc rest ih =>
      rw [List.map_cons]
      cases hc with
      | discrete dc =>
          obtain ⟨dc2, he, hk⟩ := hfnd dc
          rw [he, discreteKeysOf_cons_discrete, discreteKeysOf_cons_discrete, hk, ih]
      | gaussian gc =>
          obtain ⟨gc2, he⟩ := hfng gc
          rw [he, discreteKeysOf_cons_gaussian, discreteKeysOf_cons_gaussian, ih]
      | mixture gm =>
          obtain ⟨gm2, he⟩ := hfnm gm
          rw [he, discreteKeysOf_cons_mixture, discreteKeysOf_cons_mixture, ih]

theorem discreteKeysOf_prune (net : HybridBayesNet) (m : Nat) :
    discreteKeysOf (prune net m) = discreteKeysOf net := by
  apply discreteKeysOf_map_structure
  · intro dc
    exact ⟨pruneDiscrete net m dc, rfl, rfl⟩
  · intro gc
    exact ⟨gc, rfl⟩
  · intro gm
    exact ⟨pruneMixture net m gm, rfl⟩

theorem prodCards_pos (keys : List (Key × Nat))
    (h : ∀ kc ∈ keys, 1 ≤ kc.2) : 0 < prodCards keys := by
  induction keys with
  | nil => simp [prodCards]
  | cons kc rest ih =>
      have h1 := h kc (by simp)
      have h2 := ih fun x hx => h x (by simp [hx])
      show 0 < kc.2 * prodCards rest
      exact Nat.mul_pos h1 h2

theorem indexOfA_lt_prodCards (keys : List (Key × Nat)) (ρ : Key → Nat)
    (h : InRange ρ keys) : indexOfA ρ keys < prodCards keys := by
  induction keys with
  | nil => simp [indexOfA, prodCards]
  | cons kc rest ih =>
      have hrest := ih fun x hx => h x (by simp [hx])
      have hk : ρ kc.1 < kc.2 := h kc (by simp)
      show ρ kc.1 * prodCards rest + indexOfA ρ rest < kc.2 * prodCards rest
      calc ρ kc.1 * prodCards rest + indexOfA ρ rest
          < ρ kc.1 * prodCards rest + prodCards rest := by omega
        _ = (ρ kc.1 + 1) * prodCards rest := by ring
        _ ≤ kc.2 * prodCards rest := Nat.mul_le_mul_right _ hk

theorem treeAt_eq_some_of_covers {α : Type} (t : DecisionTree α)
    (d : DiscreteValues) (hTW : TreeWF t) (hcov : coversB d t.dkeys = true) :
    ∃ leaf, treeAt t d = some leaf ∧ leaf ∈ t.leaves := by
  have hρ := inRange_dvFun_of_coversB d t.dkeys hcov
  have hlt : indexOfA (dvFun d) t.dkeys < t.leaves.length := by
    rw [hTW.1]
    exact indexOfA_lt_prodCards t.dkeys (dvFun d) hρ
  refine ⟨t.leaves[indexOfA (dvFun d) t.dkeys], ?_, List.getElem_mem hlt⟩
  simp [treeAt, hcov, List.getElem?_eq_getElem hlt]

theorem enum_member_canonical (keys : List (Key × Nat))
    (hnd : (keys.map Prod.fst).Nodup) (d : DiscreteValues)
    (hd : d ∈ enumAssignments keys) :
    coversB d keys = true ∧
      ∀ kc ∈ keys, dvLookup d kc.1 = some (dvFun d kc.1) := by
  obtain ⟨ρ, hρ, rfl⟩ := enumAssignments_mem keys hnd d hd
  constructor
  · exact coversB_canonAssign keys ρ hρ
  · intro kc hkc
    rw [dvLookup_canonAssign keys ρ kc.1 kc.2 hkc,
      dvFun_canonAssign keys ρ kc.1 kc.2 hkc]

theorem compatB_canon_restrict (sub keys : List (Key × Nat))
    (d : DiscreteValues) (hsub : SubKeys sub keys)
    (hlk : ∀ kc ∈ keys, dvLookup d kc.1 = some (dvFun d kc.1)) :
    compatB (canonAssign sub (dvFun d)) d = true := by
  rw [compatB, List.all_eq_true]
  intro kv hkv
  obtain ⟨kc, hkc, rfl⟩ := List.mem_map.mp hkv
  have := hlk kc (hsub kc hkc)
  simp [this]

theorem branchKeptB_canon (net : HybridBayesNet) (m : Nat)
    (sub : List (Key × Nat)) (M : DiscreteValues)
    (hsub : SubKeys sub (discreteKeysOf net))
    (hM : M ∈ enumAssignments (discreteKeysOf net))
    (hlk : ∀ kc ∈ discreteKeysOf net, dvLookup M kc.1 = some (dvFun M kc.1))
    (hsurv : survivesB net m M = true) :
    branchKeptB net m (canonAssign sub (dvFun M)) = true := by
  rw [branchKeptB, List.any_eq_true]
  exact ⟨M, hM, by
    rw [hsurv, compatB_canon_restrict sub (discreteKeysOf net) M hsub hlk]
    rfl⟩

theorem treeAt_mem {α : Type} (t : DecisionTree α) (d : DiscreteValues)
    (a : α) (h : treeAt t d = some a) : a ∈ t.leaves := by
  rw [treeAt] at h
  by_cases hc : coversB d t.dkeys
  · rw [if_pos hc] at h
    exact mem_of_getElemOpt h
  · rw [if_neg hc] at h
    exact Option.noConfusion h

theorem dcProb_pruneDiscrete (net : HybridBayesNet) (m : Nat)
    (dc : DiscreteConditional) (d : DiscreteValues)
    (hcov : coversB d dc.table.dkeys = true) :
    dcProb (pruneDiscrete net m dc) d =
      if branchKeptB net m (canonAssign dc.table.dkeys (dvFun d)) = true then
        dcProb dc d
      else 0 := by
  unfold dcProb pruneDiscrete
  rw [treeAt_zipWith_enum dc.table _ d hcov]
  cases htree : treeAt dc.table d with
  | none => by_cases hk : branchKeptB net m (canonAssign dc.table.dkeys (dvFun d)) <;> simp [hk]
  | some leaf =>
      by_cases hk : branchKeptB net m (canonAssign dc.table.dkeys (dvFun d)) <;>
        simp [hk]

theorem treeAt_pruneMixture (net : HybridBayesNet) (m : Nat)
    (gm : GaussianMixture) (d : DiscreteValues)
    (hcov : coversB d gm.tree.dkeys = true) :
    treeAt (pruneMixture net m gm).tree d =
      (treeAt gm.tree d).map fun leaf =>
        if branchKeptB net m (canonAssign gm.tree.dkeys (dvFun d)) = true then
          leaf
        else none := by
  unfold pruneMixture
  exact treeAt_zipWith_enum gm.tree _ d hcov

theorem jointProb_nonneg (net : HybridBayesNet)
    (hpos : ∀ dc, HybridConditional.discrete dc ∈ net →
      ∀ q ∈ dc.table.leaves, 0 ≤ q) (d : DiscreteValues) :
    0 ≤ jointProb net d := by
  apply List.prod_nonneg
  intro x hx
  obtain ⟨hc, hmem, rfl⟩ := List.mem_map.mp hx
  cases hc with
  | discrete dc =>
      show (0 : ℚ) ≤ dcProb dc d
      unfold dcProb
      cases htree : treeAt dc.table d with
      | none => simp
      | some leaf =>
          simpa using hpos dc hmem leaf (treeAt_mem dc.table d leaf htree)
  | gaussian gc => norm_num
  | mixture gm => norm_num

theorem netWF_joint_nonneg (net : HybridBayesNet) (hwf : NetWF net)
    (d : DiscreteValues) : 0 ≤ jointProb net d :=
  jointProb_nonneg net (fun dc hdc => (hwf (.discrete dc) hdc).2.1) d

theorem jointProb_prune_eq_at (net : HybridBayesNet) (m : Nat)
    (M : DiscreteValues) (hwf : NetWF net)
    (hM : M ∈ enumAssignments (discreteKeysOf net))
    (hsurv : survivesB net m M = true) :
    jointProb (prune net m) M = jointProb net M := by
  obtain ⟨hcov, hlk⟩ :=
    enum_member_canonical (discreteKeysOf net) (netWF_nodup_keys net hwf) M hM
  unfold jointProb prune
  rw [List.map_map]
  congr 1
  apply List.map_congr_left
  intro hc hmem
  cases hc with
  | discrete dc =>
      obtain ⟨hTW, hnn, hsub⟩ := hwf _ hmem
      show dcProb (pruneDiscrete net m dc) M = dcProb dc M
      rw [dcProb_pruneDiscrete net m dc M
        (coversB_of_subKeys M _ _ hsub hcov)]
      rw [branchKeptB_canon net m dc.table.dkeys M hsub hM hlk hsurv]
      simp
  | gaussian gc => rfl
  | mixture gm => rfl

theorem jointProb_prune_cases (net : HybridBayesNet) (m : Nat)
    (a : DiscreteValues) (hcov : coversB a (discreteKeysOf net) = true) :
    ∀ l : List HybridConditional,
      (∀ hc ∈ l, condWF (discreteKeysOf net) hc) →
      jointProb (l.map (pruneCond net m)) a = jointProb l a ∨
        jointProb (l.map (pruneCond net m)) a = 0 := by
  intro l
  induction l with
  | nil => exact fun _ => Or.inl rfl
  | cons hc rest ih =>
      intro hl
      have hrest := ih fun x hx => hl x (List.mem_cons_of_mem _ hx)
      have hcons : ∀ (l2 : List HybridConditional) (x : HybridConditional),
          jointProb (x :: l2) a =
            (match x with
              | HybridConditional.discrete dc => dcProb dc a
              | _ => 1) * jointProb l2 a := by
        intro l2 x
        simp [jointProb]
      cases hc with
      | discrete dc =>
          obtain ⟨hTW, hnn, hsub⟩ :=
            (show TreeWF dc.table ∧ (∀ q ∈ dc.table.leaves, 0 ≤ q) ∧
              SubKeys dc.table.dkeys (discreteKeysOf net) from
              hl (.discrete dc) (by simp))
          rw [List.map_cons]
          show jointProb (.discrete (pruneDiscrete net m dc) :: _) a = _ ∨
            jointProb (.discrete (pruneDiscrete net m dc) :: _) a = 0
          rw [hcons, hcons]
          show dcProb (pruneDiscrete net m dc) a *
              jointProb (List.map (pruneCond net m) rest) a =
              dcProb dc a * jointProb rest a ∨
            dcProb (pruneDiscrete net m dc) a *
              jointProb (List.map (pruneCond net m) rest) a = 0
          rw [dcProb_pruneDiscrete net m dc a (coversB_of_subKeys a _ _ hsub hcov)]
          by_cases hk : branchKeptB net m (canonAssign dc.table.dkeys (dvFun a)) = true
          · rw [if_pos hk]
            rcases hrest with h | h
            · exact Or.inl (by rw [h])
            · exact Or.inr (by rw [h, mul_zero])
          · rw [if_neg hk]
            exact Or.inr (by rw [zero_mul])
      | gaussian gc =>
          rw [List.map_cons]
          show jointProb (.gaussian gc :: _) a = _ ∨ jointProb (.gaussian gc :: _) a = 0
          rw [hcons, hcons]
          rcases hrest with h | h
          · exact Or.inl (by rw [h])
          · exact Or.inr (by rw [h, mul_zero])
      | mixture gm =>
          rw [List.map_cons]
          show jointProb (.mixture (pruneMixture net m gm) :: _) a = _ ∨
            jointProb (.mixture (pruneMixture net m gm) :: _) a = 0
          rw [hcons, hcons]
          rcases hrest with h | h
          · exact Or.inl (by rw [h])
          · exact Or.inr (by rw [h, mul_zero])

theorem jointProb_prune_le (net : HybridBayesNet) (m : Nat)
    (hwf : NetWF net) (a : DiscreteValues)
    (ha : a ∈ enumAssignments (discreteKeysOf net)) :
    jointProb (prune net m) a ≤ jointProb net a := by
  obtain ⟨hcov, _⟩ :=
    enum_member_canonical (discreteKeysOf net) (netWF_nodup_keys net hwf) a ha
  rcases jointProb_prune_cases net m a hcov net hwf with h | h
  · exact le_of_eq h
  · rw [show jointProb (prune net m) a = jointProb (net.map (pruneCond net m)) a from rfl] at *
    rw [h]
    exact netWF_joint_nonneg net hwf a

theorem kthLargest_le (l : List ℚ) (m : Nat) (x : ℚ)
    (hub : ∀ y ∈ l, y ≤ x) (hx : 0 ≤ x) : kthLargest l m ≤ x := by
  unfold kthLargest
  cases hidx : (l.insertionSort (· ≥ ·))[m - 1]? with
  | none => simpa using hx
  | some q =>
      have hq : q ∈ l :=
        (List.perm_insertionSort (· ≥ ·) l).mem_iff.mp (mem_of_getElemOpt hidx)
      simpa using hub q hq

theorem enum_ne_nil (net : HybridBayesNet) (hwf : NetWF net) :
    enumAssignments (discreteKeysOf net) ≠ [] := by
  have hpos := prodCards_pos (discreteKeysOf net) (netWF_cards_keys net hwf)
  intro hcon
  rw [← length_enumAssignments, hcon] at hpos
  simp at hpos

theorem mpe_max (net : HybridBayesNet) :
    ∀ y ∈ enumAssignments (discreteKeysOf net),
      jointProb net y ≤ jointProb net (mpe net) := by
  intro y hy
  unfold mpe
  cases henum : enumAssignments (discreteKeysOf net) with
  | nil => rw [henum] at hy; cases hy
  | cons a0 rest =>
      rw [henum] at hy
      exact argmaxGo_le (jointProb net) rest a0 y hy

theorem mpe_mem (net : HybridBayesNet) (hwf : NetWF net) :
    mpe net ∈ enumAssignments (discreteKeysOf net) := by
  cases henum : enumAssignments (discreteKeysOf net) with
  | nil => exact absurd henum (enum_ne_nil net hwf)
  | cons a0 rest =>
      rw [mpe, henum]
      exact argmaxGo_mem (jointProb net) rest a0

theorem survivesB_mpe (net : HybridBayesNet) (m : Nat) (hwf : NetWF net) :
    survivesB net m (mpe net) = true := by
  unfold survivesB pruneThreshold
  rw [decide_eq_true_eq]
  apply kthLargest_le
  · intro y hy
    obtain ⟨a, ha, rfl⟩ := List.mem_map.mp hy
    exact mpe_max net a ha
  · exact netWF_joint_nonneg net hwf (mpe net)

theorem mpe_prune (net : HybridBayesNet) (m : Nat) (hwf : NetWF net) :
    mpe (prune net m) = mpe net := by
  have hkeys := discreteKeysOf_prune net m
  unfold mpe
  rw [hkeys]
  cases henum : enumAssignments (discreteKeysOf net) with
  | nil => rfl
  | cons a0 rest =>
      have hMmem : argmaxGo (jointProb net) a0 rest ∈
          enumAssignments (discreteKeysOf net) := by
        rw [henum]
        exact argmaxGo_mem (jointProb net) rest a0
      have hsurv : survivesB net m (argmaxGo (jointProb net) a0 rest) = true := by
        have := survivesB_mpe net m hwf
        rw [mpe, henum] at this
        exact this
      apply argmaxGo_stable
      · intro y hy
        rw [← henum] at hy
        exact jointProb_prune_le net m hwf y hy
      · exact jointProb_prune_eq_at net m _ hwf hMmem hsurv

theorem choose_prune (net : HybridBayesNet) (m : Nat) (M : DiscreteValues)
    (hwf : NetWF net) (hM : M ∈ enumAssignments (discreteKeysOf net))
    (hsurv : survivesB net m M = true) :
    choose (prune net m) M = choose net M := by
  obtain ⟨hcov, hlk⟩ :=
    enum_member_canonical (discreteKeysOf net) (netWF_nodup_keys net hwf) M hM
  suffices aux : ∀ l : List HybridConditional,
      (∀ hc ∈ l, condWF (discreteKeysOf net) hc) →
      choose (l.map (pruneCond net m)) M = choose l M from aux net hwf
  intro l
  induction l with
  | nil => intro _; rfl
  | cons hc rest ih =>
      intro hl
      have hrest := ih fun x hx => hl x (List.mem_cons_of_mem _ hx)
      cases hc with
      | discrete dc =>
          show choose (.discrete (pruneDiscrete net m dc) :: _) M = _
          rw [choose, choose, hrest]
      | gaussian gc =>
          show choose (.gaussian gc :: _) M = _
          rw [choose, choose, hrest]
      | mixture gm =>
          obtain ⟨hTW, hsub⟩ :=
            (show TreeWF gm.tree ∧ SubKeys gm.tree.dkeys (discreteKeysOf net) from
              hl (.mixture gm) (by simp))
          have hcovgm : coversB M gm.tree.dkeys = true :=
            coversB_of_subKeys M _ _ hsub hcov
          have hkept : branchKeptB net m (canonAssign gm.tree.dkeys (dvFun M)) = true :=
            branchKeptB_canon net m gm.tree.dkeys M hsub hM hlk hsurv
          show choose (.mixture (pruneMixture net m gm) :: _) M = _
          rw [choose, choose, hrest]
          have hdk : (pruneMixture net m gm).tree.dkeys = gm.tree.dkeys := rfl
          rw [hdk, if_pos hcovgm, if_pos hcovgm]
          rw [treeAt_pruneMixture net m gm M hcovgm, hkept]
          cases treeAt gm.tree M <;> simp

/-- Pruning preserves the optimum: `prune(maxNrLeaves).optimize()` equals
`optimize()` on a well-formed net whenever at least one leaf is kept. -/
theorem prune_optimize (net : HybridBayesNet) (m : Nat) (hwf : NetWF net) :
    optimize (prune net m) = optimize net := by
  unfold optimize
  rw [mpe_prune net m hwf]
  rw [choose_prune net m (mpe net) hwf (mpe_mem net hwf) (survivesB_mpe net m hwf)]

/-! ## Error under pruning -/

theorem mem_zipWith {α β γ : Type} (f : α → β → γ) (l1 : List α) (l2 : List β)
    (x : γ) (h : x ∈ List.zipWith f l1 l2) :
    ∃ a b, a ∈ l1 ∧ b ∈ l2 ∧ f a b = x := by
  obtain ⟨i, hi, hx⟩ := List.mem_iff_getElem.mp h
  rw [List.getElem_zipWith] at hx
  rw [List.length_zipWith] at hi
  exact ⟨l1[i], l2[i], List.getElem_mem (by omega), List.getElem_mem (by omega), hx⟩

theorem treeWF_pruneDiscrete (net : HybridBayesNet) (m : Nat)
    (dc : DiscreteConditional) (h : TreeWF dc.table) :
    TreeWF (pruneDiscrete net m dc).table := by
  refine ⟨?_, h.2.1, h.2.2⟩
  show (List.zipWith _ _ _).length = _
  rw [List.length_zipWith, length_enumAssignments, h.1]
  simp
  rfl

theorem treeWF_pruneMixture (net : HybridBayesNet) (m : Nat)
    (gm : GaussianMixture) (h : TreeWF gm.tree) :
    TreeWF (pruneMixture net m gm).tree := by
  refine ⟨?_, h.2.1, h.2.2⟩
  show (List.zipWith _ _ _).length = _
  rw [List.length_zipWith, length_enumAssignments, h.1]
  simp
  rfl

theorem netWF_prune (net : HybridBayesNet) (m : Nat) (hwf : NetWF net) :
    NetWF (prune net m) := by
  intro hc2 hmem
  rw [show prune net m = net.map (pruneCond net m) from rfl] at hmem
  obtain ⟨hc, hhc, rfl⟩ := List.mem_map.mp hmem
  rw [discreteKeysOf_prune]
  cases hc with
  | discrete dc =>
      obtain ⟨hTW, hnn, hsub⟩ :=
        (show TreeWF dc.table ∧ (∀ q ∈ dc.table.leaves, 0 ≤ q) ∧
          SubKeys dc.table.dkeys (discreteKeysOf net) from hwf _ hhc)
      refine ⟨treeWF_pruneDiscrete net m dc hTW, ?_, hsub⟩
      intro q hq
      obtain ⟨a, leaf, _, hleaf, rfl⟩ := mem_zipWith _ _ _ q hq
      by_cases hk : branchKeptB net m a = true
      · rw [if_pos hk]
        exact hnn leaf hleaf
      · rw [if_neg hk]
  | gaussian gc => trivial
  | mixture gm =>
      obtain ⟨hTW, hsub⟩ :=
        (show TreeWF gm.tree ∧ SubKeys gm.tree.dkeys (discreteKeysOf net) from
          hwf _ hhc)
      exact ⟨treeWF_pruneMixture net m gm hTW, hsub⟩

theorem gmErrorAt_pruneMixture_eq (net : HybridBayesNet) (m : Nat)
    (gm : GaussianMixture) (v : VectorValues) (d : DiscreteValues)
    (hcov : coversB d gm.tree.dkeys = true)
    (hkept : branchKeptB net m (canonAssign gm.tree.dkeys (dvFun d)) = true) :
    gmErrorAt (pruneMixture net m gm) v d = gmErrorAt gm v d := by
  unfold gmErrorAt
  rw [treeAt_pruneMixture net m gm d hcov, hkept]
  cases treeAt gm.tree d <;> simp

theorem errorScalar_prune_eq (net : HybridBayesNet) (m : Nat)
    (v : VectorValues) (d : DiscreteValues) (hwf : NetWF net)
    (hd : d ∈ enumAssignments (discreteKeysOf net))
    (hsurv : survivesB net m d = true) :
    errorScalar (prune net m) v d = errorScalar net v d := by
  obtain ⟨hcov, hlk⟩ :=
    enum_member_canonical (discreteKeysOf net) (netWF_nodup_keys net hwf) d hd
  unfold errorScalar prune
  rw [List.map_map]
  congr 1
  apply List.map_congr_left
  intro hc hmem
  cases hc with
  | discrete dc => rfl
  | gaussian gc => rfl
  | mixture gm =>
      obtain ⟨hTW, hsub⟩ :=
        (show TreeWF gm.tree ∧ SubKeys gm.tree.dkeys (discreteKeysOf net) from
          hwf _ hmem)
      show gmErrorAt (pruneMixture net m gm) v d = gmErrorAt gm v d
      exact gmErrorAt_pruneMixture_eq net m gm v d
        (coversB_of_subKeys d _ _ hsub hcov)
        (branchKeptB_canon net m gm.tree.dkeys d hsub hd hlk hsurv)

theorem sentinelErr_nonneg : (0 : ℚ) ≤ sentinelErr := by
  unfold sentinelErr
  positivity

theorem gmErrorAt_nonneg (gm : GaussianMixture) (v : VectorValues)
    (d : DiscreteValues) : 0 ≤ gmErrorAt gm v d := by
  unfold gmErrorAt
  cases htree : treeAt gm.tree d with
  | none => simp
  | some oc =>
      cases oc with
      | none => simpa [gmErrorLeaf] using sentinelErr_nonneg
      | some gc => simpa [gmErrorLeaf] using gcError_nonneg gc v

theorem condErrorScalar_nonneg (v : VectorValues) (d : DiscreteValues)
    (hc : HybridConditional) : 0 ≤ condErrorScalar v d hc := by
  cases hc with
  | discrete dc => exact le_refl 0
  | gaussian gc => exact gcError_nonneg gc v
  | mixture gm => exact gmErrorAt_nonneg gm v d

theorem gmErrorAt_pruneMixture_sentinel (net : HybridBayesNet) (m : Nat)
    (gm : GaussianMixture) (v : VectorValues) (d : DiscreteValues)
    (hTW : TreeWF gm.tree) (hcov : coversB d gm.tree.dkeys = true)
    (hkept : branchKeptB net m (canonAssign gm.tree.dkeys (dvFun d)) = false) :
    gmErrorAt (pruneMixture net m gm) v d = sentinelErr := by
  obtain ⟨leaf, hleaf, _⟩ := treeAt_eq_some_of_covers gm.tree d hTW hcov
  unfold gmErrorAt
  rw [treeAt_pruneMixture net m gm d hcov, hleaf, hkept]
  simp [gmErrorLeaf]

theorem errorScalar_prune_sentinel (net : HybridBayesNet) (m : Nat)
    (v : VectorValues) (d : DiscreteValues) (hwf : NetWF net)
    (hd : d ∈ enumAssignments (discreteKeysOf net)) (gm : GaussianMixture)
    (hgm : HybridConditional.mixture gm ∈ net)
    (hkept : branchKeptB net m (canonAssign gm.tree.dkeys (dvFun d)) = false) :
    sentinelErr ≤ errorScalar (prune net m) v d := by
  obtain ⟨hcov, _⟩ :=
    enum_member_canonical (discreteKeysOf net) (netWF_nodup_keys net hwf) d hd
  obtain ⟨hTW, hsub⟩ :=
    (show TreeWF gm.tree ∧ SubKeys gm.tree.dkeys (discreteKeysOf net) from
      hwf _ hgm)
  have hval : condErrorScalar v d (pruneCond net m (.mixture gm)) = sentinelErr := by
    show gmErrorAt (pruneMixture net m gm) v d = sentinelErr
    exact gmErrorAt_pruneMixture_sentinel net m gm v d hTW
      (coversB_of_subKeys d _ _ hsub hcov) hkept
  have hmem : condErrorScalar v d (pruneCond net m (.mixture gm)) ∈
      (prune net m).map (condErrorScalar v d) := by
    apply List.mem_map_of_mem
    exact List.mem_map_of_mem _ hgm
  rw [hval] at hmem
  exact List.single_le_sum
    (fun x hx => by
      obtain ⟨hc, _, rfl⟩ := List.mem_map.mp hx
      exact condErrorScalar_nonneg v d hc) _ hmem

/-! ## Claim theorems for the Hybrid Bayes Net operations -/

theorem exceptMap_eq_error {ε α β : Type} (f : α → β) (x : Except ε α)
    (e : ε) : (x.map f = .error e) ↔ x = .error e := by
  cases x <;> simp [Except.map]

theorem mixturesCoveredB_iff (net : HybridBayesNet) (d : DiscreteValues) :
    mixturesCoveredB net d = true ↔
      ∀ gm, HybridConditional.mixture gm ∈ net →
        coversB d gm.tree.dkeys = true := by
  rw [mixturesCoveredB, List.all_eq_true]
  constructor
  · intro h gm hgm
    simpa using h _ hgm
  · intro h hc hhc
    cases hc with
    | discrete dc => rfl
    | gaussian gc => rfl
    | mixture gm => simpa using h gm hhc

theorem errorScalar_eq_nonDiscrete_sum (net : HybridBayesNet)
    (v : VectorValues) (d : DiscreteValues) :
    errorScalar net v d = ((nonDiscrete net).map (condErrorScalar v d)).sum := by
  unfold errorScalar nonDiscrete
  induction net with
  | nil => rfl
  | cons hc rest ih =>
      cases hc with
      | discrete dc =>
          rw [List.map_cons, List.sum_cons]
          rw [List.filter_cons_of_neg (by simp [isDiscreteB])]
          simpa [condErrorScalar] using ih
      | gaussian gc =>
          rw [List.map_cons, List.sum_cons]
          rw [List.filter_cons_of_pos (by simp [isDiscreteB])]
          rw [List.map_cons, List.sum_cons, ih]
      | mixture gm =>
          rw [List.map_cons, List.sum_cons]
          rw [List.filter_cons_of_pos (by simp [isDiscreteB])]
          rw [List.map_cons, List.sum_cons, ih]

/-- C1 (amended): on a well-formed net, the no-assignment error tree evaluated
at a covering assignment equals the fixed-assignment error, which is the sum
of the non-discrete conditionals' errors (mixtures at `(v, d)`, Gaussians at
`v`); pure discrete conditionals contribute nothing. -/
theorem claim_C1_amended (net : HybridBayesNet) (v : VectorValues)
    (d : DiscreteValues) (hwf : NetWF net)
    (hcov : coversB d (discreteKeysOf net) = true) :
    treeAt (errorTree net v) d = some (errorScalar net v d) ∧
      errorScalar net v d =
        ((nonDiscrete net).map (condErrorScalar v d)).sum :=
  ⟨treeAt_errorTree net v d hwf hcov,
    errorScalar_eq_nonDiscrete_sum net v d⟩

/-- C1 (counterexample): on the net holding only the `Creation` test's
discrete conditional `P(Asia) = 99/1`, the sum described by the spec sentence
(discrete conditionals contributing their negative log-probability) differs
from the code's fixed-assignment error, which is 0. -/
theorem claim_C1_counterexample :
    errorSpecClaimSum asiaNet [] [(0, 0)] ≠
      ((errorScalar asiaNet [] [(0, 0)] : ℚ) : ℝ) := by
  have hp : dcProb dcAsia [(0, 0)] = 99 / 100 := by decide
  have he : errorScalar asiaNet [] [(0, 0)] = 0 := by decide
  rw [he]
  show (-Real.log ((dcProb dcAsia [(0, 0)] : ℚ) : ℝ) + 0) ≠ _
  rw [hp]
  have hlog : Real.log ((99 / 100 : ℚ) : ℝ) < 0 := by
    apply Real.log_neg
    · norm_num
    · norm_num
  intro hcon
  rw [add_zero] at hcon
  rw [show (((0 : ℚ) : ℝ)) = 0 by norm_num] at hcon
  have : Real.log ((99 / 100 : ℚ) : ℝ) = 0 := by linarith [hcon]
  exact absurd (this ▸ hlog) (lt_irrefl 0)

/-- C1 (witness): the amended consistency evaluated on a concrete mixed net. -/
theorem claim_C1_witness :
    NetWF exNetMixed ∧ coversB [(0, 1)] (discreteKeysOf exNetMixed) = true ∧
      treeAt (errorTree exNetMixed vZero) [(0, 1)] =
        some (errorScalar exNetMixed vZero [(0, 1)]) :=
  ⟨by decide, by decide,
    (claim_C1_amended exNetMixed vZero [(0, 1)] (by decide) (by decide)).1⟩

/-- C2: pruning preserves the optimum: on a well-formed net, for every
`maxNrLeaves ≥ 1`, `prune(maxNrLeaves).optimize()` returns the same discrete
assignment and the same continuous delta as `optimize()`. -/
theorem claim_C2 (net : HybridBayesNet) (m : Nat) (hwf : NetWF net)
    (_hm : 1 ≤ m) : optimize (prune net m) = optimize net :=
  prune_optimize net m hwf

/-- C2 (witness): pruning the two-mode net to one leaf leaves the optimum
unchanged. -/
theorem claim_C2_witness :
    NetWF exNetTwo ∧ 1 ≤ 1 ∧ optimize (prune exNetTwo 1) = optimize exNetTwo :=
  ⟨by decide, le_refl 1, claim_C2 exNetTwo 1 (by decide) (le_refl 1)⟩

/-- C3: when the assignment covers every mixture's discrete keys, `choose`
returns the Gaussian Bayes net with the same length and order as the
non-discrete conditionals, mixtures collapsed through `operator()(assignment)`
and discrete conditionals dropped. -/
theorem claim_C3 (net : HybridBayesNet) (d : DiscreteValues)
    (hcov : ∀ gm, HybridConditional.mixture gm ∈ net →
      coversB d gm.tree.dkeys = true) :
    choose net d = Except.ok ((nonDiscrete net).map (collapseCond d)) ∧
      ((nonDiscrete net).map (collapseCond d)).length =
        (nonDiscrete net).length := by
  refine ⟨?_, List.length_map _ _⟩
  induction net with
  | nil => rfl
  | cons hc rest ih =>
      have hrest : ∀ gm, HybridConditional.mixture gm ∈ rest →
          coversB d gm.tree.dkeys = true :=
        fun gm hgm => hcov gm (List.mem_cons_of_mem _ hgm)
      cases hc with
      | discrete dc =>
          rw [show choose (.discrete dc :: rest) d = choose rest d from rfl,
            ih hrest]
          simp only [nonDiscrete]
          rw [List.filter_cons_of_neg (by simp [isDiscreteB])]
      | gaussian gc =>
          rw [show choose (.gaussian gc :: rest) d =
            (choose rest d).map (fun l => some gc :: l) from rfl, ih hrest]
          simp only [nonDiscrete]
          rw [List.filter_cons_of_pos (by simp [isDiscreteB])]
          rfl
      | mixture gm =>
          have hc := hcov gm (by simp)
          rw [show choose (.mixture gm :: rest) d =
            if coversB d gm.tree.dkeys then
              (choose rest d).map fun l => (treeAt gm.tree d).getD none :: l
            else .error .assignmentIncompleteErr from rfl]
          rw [if_pos hc, ih hrest]
          simp only [nonDiscrete]
          rw [List.filter_cons_of_pos (by simp [isDiscreteB])]
          rfl

/-- C3 (witness): `choose` on the concrete mixed net at a covering
assignment. -/
theorem claim_C3_witness :
    choose exNetMixed [(0, 1)] =
      Except.ok ((nonDiscrete exNetMixed).map (collapseCond [(0, 1)])) :=
  (claim_C3 exNetMixed [(0, 1)]
    ((mixturesCoveredB_iff exNetMixed [(0, 1)]).mp (by decide))).1

/-- C4 (amended): after `prune(maxNrLeaves)`, every surviving assignment reads
the same error from the pruned net's error tree as from the unpruned one; an
assignment whose branch in some mixture no survivor extends reads an error of
at least the sentinel `1e50` (large and finite, but a sum of one sentinel per
fully-pruned mixture plus the remaining branch errors, not one fixed
constant). -/
theorem claim_C4_amended (net : HybridBayesNet) (m : Nat) (v : VectorValues)
    (d : DiscreteValues) (hwf : NetWF net) (_hm : 1 ≤ m)
    (hd : d ∈ enumAssignments (discreteKeysOf net)) :
    (survivesB net m d = true →
      treeAt (errorTree (prune net m) v) d = treeAt (errorTree net v) d) ∧
      ∀ gm, HybridConditional.mixture gm ∈ net →
        branchKeptB net m (canonAssign gm.tree.dkeys (dvFun d)) = false →
        ∃ q, treeAt (errorTree (prune net m) v) d = some q ∧ sentinelErr ≤ q := by
  have hwfp := netWF_prune net m hwf
  obtain ⟨hcov, _⟩ :=
    enum_member_canonical (discreteKeysOf net) (netWF_nodup_keys net hwf) d hd
  have hcovp : coversB d (discreteKeysOf (prune net m)) = true := by
    rw [discreteKeysOf_prune]
    exact hcov
  constructor
  · intro hsurv
    rw [treeAt_errorTree (prune net m) v d hwfp hcovp,
      treeAt_errorTree net v d hwf hcov,
      errorScalar_prune_eq net m v d hwf hd hsurv]
  · intro gm hgm hkept
    exact ⟨errorScalar (prune net m) v d,
      treeAt_errorTree (prune net m) v d hwfp hcovp,
      errorScalar_prune_sentinel net m v d hwf hd gm hgm hkept⟩

/-- C4 (counterexample): on the two-mode net pruned to one leaf, two
pruned-away assignments read different errors (one mixture pruned vs two), so
the pruned error tree does not give one fixed sentinel value on pruned-away
assignments. -/
theorem claim_C4_counterexample :
    survivesB exNetTwo 1 [(0, 0), (1, 1)] = false ∧
      survivesB exNetTwo 1 [(0, 1), (1, 0)] = false ∧
      treeAt (errorTree (prune exNetTwo 1) vZero) [(0, 0), (1, 1)] ≠
        treeAt (errorTree (prune exNetTwo 1) vZero) [(0, 1), (1, 0)] := by
  refine ⟨by decide, by decide, by decide⟩

/-- C4 (witness): the amended statement on the two-mode net: a surviving
assignment reads an unchanged error and a fully pruned one reads at least the
sentinel. -/
theorem claim_C4_witness :
    NetWF exNetTwo ∧
      treeAt (errorTree (prune exNetTwo 1) vZero) [(0, 0), (1, 0)] =
        treeAt (errorTree exNetTwo vZero) [(0, 0), (1, 0)] :=
  ⟨by decide,
    (claim_C4_amended exNetTwo 1 vZero [(0, 0), (1, 0)] (by decide) (le_refl 1)
      (by decide)).1 (by decide)⟩

/-- C7: `choose` fails with `AssignmentIncompleteError` exactly when the
assignment misses some mixture's discrete keys; success guarantees every
mixture was covered, so no missing key is silently defaulted. -/
theorem claim_C7 (net : HybridBayesNet) (d : DiscreteValues) :
    choose net d = Except.error HybridFailure.assignmentIncompleteErr ↔
      ∃ gm, HybridConditional.mixture gm ∈ net ∧
        coversB d gm.tree.dkeys = false := by
  induction net with
  | nil =>
      constructor
      · intro h
        exact Except.noConfusion h
      · rintro ⟨gm, hgm, _⟩
        cases hgm
  | cons hc rest ih =>
      cases hc with
      | discrete dc =>
          rw [show choose (.discrete dc :: rest) d = choose rest d from rfl, ih]
          constructor
          · rintro ⟨gm, hgm, hcv⟩
            exact ⟨gm, List.mem_cons_of_mem _ hgm, hcv⟩
          · rintro ⟨gm, hgm, hcv⟩
            rcases List.mem_cons.mp hgm with heq | hmem
            · exact absurd heq (by simp)
            · exact ⟨gm, hmem, hcv⟩
      | gaussian gc =>
          rw [show choose (.gaussian gc :: rest) d =
            (choose rest d).map (fun l => some gc :: l) from rfl]
          rw [exceptMap_eq_error, ih]
          constructor
          · rintro ⟨gm, hgm, hcv⟩
            exact ⟨gm, List.mem_cons_of_mem _ hgm, hcv⟩
          · rintro ⟨gm, hgm, hcv⟩
            rcases List.mem_cons.mp hgm with heq | hmem
            · exact absurd heq (by simp)
            · exact ⟨gm, hmem, hcv⟩
      | mixture gm =>
          rw [show choose (.mixture gm :: rest) d =
            if coversB d gm.tree.dkeys then
              (choose rest d).map fun l => (treeAt gm.tree d).getD none :: l
            else .error .assignmentIncompleteErr from rfl]
          by_cases hcv : coversB d gm.tree.dkeys
          · rw [if_pos hcv, exceptMap_eq_error, ih]
            constructor
            · rintro ⟨gm2, hgm2, hcv2⟩
              exact ⟨gm2, List.mem_cons_of_mem _ hgm2, hcv2⟩
            · rintro ⟨gm2, hgm2, hcv2⟩
              rcases List.mem_cons.mp hgm2 with heq | hmem
              · injection heq with heq2
                rw [heq2] at hcv2
                rw [hcv] at hcv2
                exact Bool.noConfusion hcv2
              · exact ⟨gm2, hmem, hcv2⟩
          · rw [if_neg hcv]
            constructor
            · intro _
              exact ⟨gm, by simp, by simpa using hcv⟩
            · intro _
              rfl

/-- C8: `prune` is a pure call: the state after `pruneCall` is the original
net, and `error`, `optimize` and `choose` on the original net give the same
results after the call as before (in this value-passing model, state is never
mutated). -/
theorem claim_C8 (st : HybridBayesNet) (m : Nat) :
    (pruneCall st m).2 = st ∧
      (∀ v d, errorScalar (pruneCall st m).2 v d = errorScalar st v d) ∧
      (∀ v, errorTree (pruneCall st m).2 v = errorTree st v) ∧
      optimize (pruneCall st m).2 = optimize st ∧
      ∀ d, choose (pruneCall st m).2 d = choose st d :=
  ⟨rfl, fun _ _ => rfl, fun _ => rfl, rfl, fun _ => rfl⟩

/-! ## Fixture theorems -/

/-- Completing the square: at a point satisfying the normal equations, the
chain error decomposes as its value there plus a positive-definite quadratic
in the difference. -/
theorem chainErrC_decomp (c1 c2 c3 s1 s2 s3 s4 x1 x2 x3 x4 : ℚ)
    (h1 : 100 * (s1 + 1) - (s2 - s1 + c1) = 0)
    (h2 : (s2 - s1 + c1) - (s3 - s2 + c2) + 100 * (s2 + 1) = 0)
    (h3 : (s3 - s2 + c2) - (s4 - s3 + c3) + 100 * (s3 + 1) = 0)
    (h4 : (s4 - s3 + c3) + 100 * (s4 + 1) = 0) :
    chainErrC c1 c2 c3 x1 x2 x3 x4 =
      chainErrC c1 c2 c3 s1 s2 s3 s4 +
        (50 * (x1 - s1) ^ 2 + (1 / 2) * ((x2 - s2) - (x1 - s1)) ^ 2 +
          (1 / 2) * ((x3 - s3) - (x2 - s2)) ^ 2 +
          (1 / 2) * ((x4 - s4) - (x3 - s3)) ^ 2 +
          50 * (x2 - s2) ^ 2 + 50 * (x3 - s3) ^ 2 + 50 * (x4 - s4) ^ 2) := by
  unfold chainErrC
  linear_combination (x1 - s1) * h1 + (x2 - s2) * h2 + (x3 - s3) * h3 +
    (x4 - s4) * h4

/-- The Thomas solution satisfies the normal equations (for every mode,
checked by exact rational arithmetic). -/
theorem optimizeAssignment4_normal (m1 m2 m3 : Fin 2) :
    match optimizeAssignment4 m1 m2 m3 with
    | (s1, s2, s3, s4) =>
        100 * (s1 + 1) - (s2 - s1 + switchOffset m1) = 0 ∧
        (s2 - s1 + switchOffset m1) - (s3 - s2 + switchOffset m2) +
          100 * (s2 + 1) = 0 ∧
        (s3 - s2 + switchOffset m2) - (s4 - s3 + switchOffset m3) +
          100 * (s3 + 1) = 0 ∧
        (s4 - s3 + switchOffset m3) + 100 * (s4 + 1) = 0 := by
  fin_cases m1 <;> fin_cases m2 <;> fin_cases m3 <;> exact by decide

/-- The returned delta minimizes the chain error for its assignment. -/
theorem optimizeAssignment4_min (m1 m2 m3 : Fin 2) (x1 x2 x3 x4 : ℚ) :
    minError4 m1 m2 m3 ≤ chainError4 m1 m2 m3 x1 x2 x3 x4 := by
  have hn := optimizeAssignment4_normal m1 m2 m3
  rcases hs : optimizeAssignment4 m1 m2 m3 with ⟨s1, s2, s3, s4⟩
  rw [hs] at hn
  obtain ⟨h1, h2, h3, h4⟩ := hn
  have hdec := chainErrC_decomp (switchOffset m1) (switchOffset m2)
    (switchOffset m3) s1 s2 s3 s4 x1 x2 x3 x4 h1 h2 h3 h4
  have hmin : minError4 m1 m2 m3 = chainError4 m1 m2 m3 s1 s2 s3 s4 := by
    rw [minError4, hs]
  rw [hmin]
  unfold chainError4
  rw [hdec]
  have hq : (0 : ℚ) ≤ 50 * (x1 - s1) ^ 2 + (1 / 2) * ((x2 - s2) - (x1 - s1)) ^ 2 +
      (1 / 2) * ((x3 - s3) - (x2 - s2)) ^ 2 +
      (1 / 2) * ((x4 - s4) - (x3 - s3)) ^ 2 +
      50 * (x2 - s2) ^ 2 + 50 * (x3 - s3) ^ 2 + 50 * (x4 - s4) ^ 2 := by
    positivity
  linarith

/-- C5 (counterexample): with the discrete assignment fixed to
{m1=1, m2=1, m3=0} — the assignment the spec scenario names — the 4-chain
delta is not -1 on every variable. -/
theorem claim_C5_counterexample :
    optimizeAssignment4 1 1 0 ≠ (-1, -1, -1, -1) := by
  decide

/-- C5 (amended): with the discrete assignment fixed to {m1=1, m2=1, m3=1}
(the assignment the cited test `OptimizeAssignment` actually fixes), the
4-chain delta is exactly -1 for every continuous variable, and it is the
minimizer of the chain error for that assignment. -/
theorem claim_C5_amended :
    optimizeAssignment4 1 1 1 = (-1, -1, -1, -1) ∧
      ∀ x1 x2 x3 x4 : ℚ,
        chainError4 1 1 1 (-1) (-1) (-1) (-1) ≤ chainError4 1 1 1 x1 x2 x3 x4 := by
  have hs : optimizeAssignment4 1 1 1 = (-1, -1, -1, -1) := by decide
  refine ⟨hs, ?_⟩
  intro x1 x2 x3 x4
  have := optimizeAssignment4_min 1 1 1 x1 x2 x3 x4
  rw [minError4, hs] at this
  exact this

theorem score_lt_of_bounds (p e ps es : ℚ) (hp : 0 ≤ p) (he : 0 ≤ e)
    (h : p * (1 + e)⁻¹ < ps * (1 - es)) (hps : 0 ≤ ps) :
    ((p : ℚ) : ℝ) * Real.exp (-((e : ℚ) : ℝ)) <
      ((ps : ℚ) : ℝ) * Real.exp (-((es : ℚ) : ℝ)) := by
  have hbound1 : Real.exp (-((e : ℚ) : ℝ)) ≤ (1 + ((e : ℚ) : ℝ))⁻¹ := by
    rw [Real.exp_neg]
    have hpos : (0 : ℝ) < 1 + ((e : ℚ) : ℝ) := by
      have : (0 : ℝ) ≤ ((e : ℚ) : ℝ) := by exact_mod_cast he
      linarith
    have hle : 1 + ((e : ℚ) : ℝ) ≤ Real.exp ((e : ℚ) : ℝ) := by
      have := Real.add_one_le_exp ((e : ℚ) : ℝ)
      linarith
    exact inv_anti₀ hpos hle
  have hbound2 : 1 - ((es : ℚ) : ℝ) ≤ Real.exp (-((es : ℚ) : ℝ)) := by
    have := Real.add_one_le_exp (-((es : ℚ) : ℝ))
    linarith
  have hppos : (0 : ℝ) ≤ ((p : ℚ) : ℝ) := by exact_mod_cast hp
  have hpspos : (0 : ℝ) ≤ ((ps : ℚ) : ℝ) := by exact_mod_cast hps
  calc ((p : ℚ) : ℝ) * Real.exp (-((e : ℚ) : ℝ))
      ≤ ((p : ℚ) : ℝ) * (1 + ((e : ℚ) : ℝ))⁻¹ :=
        mul_le_mul_of_nonneg_left hbound1 hppos
    _ < ((ps : ℚ) : ℝ) * (1 - ((es : ℚ) : ℝ)) := by
        have hcast : ((p * (1 + e)⁻¹ : ℚ) : ℝ) < ((ps * (1 - es) : ℚ) : ℝ) := by
          exact_mod_cast h
        push_cast at hcast
        convert hcast using 2
    _ ≤ ((ps : ℚ) : ℝ) * Real.exp (-((es : ℚ) : ℝ)) :=
        mul_le_mul_of_nonneg_left hbound2 hpspos

/-- The MAP mode assignment of the 4-chain is uniquely {m1=1, m2=0, m3=1}:
every other assignment scores strictly lower. -/
theorem score4_lt (m : Fin 2 × Fin 2 × Fin 2) (hm : m ≠ (1, 0, 1)) :
    score4 m < score4 (1, 0, 1) := by
  have happ : ∀ a b c : Fin 2, (a, b, c) ≠ ((1 : Fin 2), (0 : Fin 2), (1 : Fin 2)) →
      modePrior4 a b c * (1 + minError4 a b c)⁻¹ <
        modePrior4 1 0 1 * (1 - minError4 1 0 1) → score4 (a, b, c) < score4 (1, 0, 1) := by
    intro a b c _ hlt
    unfold score4
    exact score_lt_of_bounds (modePrior4 a b c) (minError4 a b c)
      (modePrior4 1 0 1) (minError4 1 0 1) (by fin_cases a <;> fin_cases b <;> fin_cases c <;> exact by decide)
      (by fin_cases a <;> fin_cases b <;> fin_cases c <;> exact by decide) hlt (by decide)
  rcases m with ⟨a, b, c⟩
  fin_cases a <;> fin_cases b <;> fin_cases c
  · exact happ 0 0 0 (by decide) (by decide)
  · exact happ 0 0 1 (by decide) (by decide)
  · exact happ 0 1 0 (by decide) (by decide)
  · exact happ 0 1 1 (by decide) (by decide)
  · exact happ 1 0 0 (by decide) (by decide)
  · exact absurd rfl hm
  · exact happ 1 1 0 (by decide) (by decide)
  · exact happ 1 1 1 (by decide) (by decide)

/-- C6: on the 4-step switching chain, any maximizer of the discrete
posterior score is {m1=1, m2=0, m3=1}, and the continuous delta for that
assignment is within 1e-4 of (-0.9999, -0.9903, -1.0097, -1.0001). -/
theorem claim_C6 (mhat : Fin 2 × Fin 2 × Fin 2)
    (hmax : ∀ m, score4 m ≤ score4 mhat) :
    mhat = (1, 0, 1) ∧
      |(optimizeAssignment4 1 0 1).1 + 9999 / 10000| ≤ 1 / 10000 ∧
      |(optimizeAssignment4 1 0 1).2.1 + 9903 / 10000| ≤ 1 / 10000 ∧
      |(optimizeAssignment4 1 0 1).2.2.1 + 10097 / 10000| ≤ 1 / 10000 ∧
      |(optimizeAssignment4 1 0 1).2.2.2 + 10001 / 10000| ≤ 1 / 10000 := by
  constructor
  · by_contra hne
    have hlt := score4_lt mhat hne
    have hle := hmax (1, 0, 1)
    exact absurd (lt_of_le_of_lt hle hlt) (lt_irrefl _)
  · refine ⟨?_, ?_, ?_, ?_⟩ <;> exact by decide

/-- C6 (witness): the score maximizer hypothesis holds at {m1=1, m2=0, m3=1}
itself, and the theorem instantiated there yields the regression deltas. -/
theorem claim_C6_witness :
    ((1, 0, 1) : Fin 2 × Fin 2 × Fin 2) = (1, 0, 1) ∧
      |(optimizeAssignment4 1 0 1).1 + 9999 / 10000| ≤ 1 / 10000 ∧
      |(optimizeAssignment4 1 0 1).2.1 + 9903 / 10000| ≤ 1 / 10000 ∧
      |(optimizeAssignment4 1 0 1).2.2.1 + 10097 / 10000| ≤ 1 / 10000 ∧
      |(optimizeAssignment4 1 0 1).2.2.2 + 10001 / 10000| ≤ 1 / 10000 :=
  claim_C6 (1, 0, 1) fun m => by
    by_cases hm : m = (1, 0, 1)
    · rw [hm]
    · exact le_of_lt (score4_lt m hm)

/-! ## Round-trip lemmas -/

theorem decListWith_rt {σ α : Type} (enc : α → List σ)
    (dec : List σ → Option (α × List σ)) (l : List α)
    (hrt : ∀ x ∈ l, ∀ rest, dec (enc x ++ rest) = some (x, rest)) :
    ∀ rest, decListWith dec l.length ((l.map enc).flatten ++ rest) =
      some (l, rest) := by
  induction l with
  | nil => intro rest; simp [decListWith]
  | cons x xs ih =>
      intro rest
      have hx := hrt x (by simp)
      have hxs := ih fun y hy => hrt y (List.mem_cons_of_mem _ hy)
      show decListWith dec (xs.length + 1) _ = _
      rw [List.map_cons, List.flatten_cons, List.append_assoc]
      rw [decListWith]
      simp only [hx, Option.some_bind]
      simp only [hxs, Option.some_bind]

theorem decNat_rt (n : Nat) (rest : List Nat) :
    decNat (encNat n ++ rest) = some (n, rest) := rfl

theorem decInt_rt (i : Int) (rest : List Nat) :
    decInt (encInt i ++ rest) = some (i, rest) := by
  cases i <;> simp [encInt, decInt]

theorem decRat_rt (q : ℚ) (rest : List Nat) :
    decRat (encRat q ++ rest) = some (q, rest) := by
  rw [encRat, decRat, List.append_assoc, decInt_rt]
  simp only [Option.some_bind]
  show some ((q.num : ℚ) / (q.den : ℚ), rest) = some (q, rest)
  rw [Rat.num_div_den]

theorem decListN_rt {α : Type} (enc : α → List Nat)
    (dec : List Nat → Option (α × List Nat)) (l : List α)
    (hrt : ∀ x ∈ l, ∀ rest, dec (enc x ++ rest) = some (x, rest))
    (rest : List Nat) : decListN dec (encListN enc l ++ rest) = some (l, rest) := by
  rw [encListN]
  show decListWith dec l.length ((l.map enc).flatten ++ rest) = some (l, rest)
  exact decListWith_rt enc dec l hrt rest

theorem decKC_rt (kc : Key × Nat) (rest : List Nat) :
    decKC (encKC kc ++ rest) = some (kc, rest) := rfl

theorem decGC_rt (gc : GaussianConditional) (rest : List Nat) :
    decGC (encGC gc ++ rest) = some (gc, rest) := by
  rw [encGC, decGC]
  rw [List.append_assoc, List.append_assoc, List.append_assoc, List.append_assoc]
  simp only [decListN_rt encNat decNat gc.frontals (fun x _ => decNat_rt x),
    decListN_rt encNat decNat gc.parents (fun x _ => decNat_rt x),
    decListN_rt (encListN encRat) (decListN decRat) gc.R
      (fun row _ => decListN_rt encRat decRat row fun x _ => decRat_rt x),
    decListN_rt (encListN encRat) (decListN decRat) gc.S
      (fun row _ => decListN_rt encRat decRat row fun x _ => decRat_rt x),
    decListN_rt encRat decRat gc.d (fun x _ => decRat_rt x),
    Option.some_bind]

theorem decOptGC_rt (oc : Option GaussianConditional) (rest : List Nat) :
    decOptGC (encOptGC oc ++ rest) = some (oc, rest) := by
  cases oc with
  | none => rfl
  | some gc =>
      show decOptGC (1 :: (encGC gc ++ rest)) = _
      rw [decOptGC]
      · simp only [decGC_rt, Option.some_bind]
      · omega

theorem decTreeQ_rt (t : DecisionTree ℚ) (rest : List Nat) :
    decTreeQ (encTreeQ t ++ rest) = some (t, rest) := by
  rw [encTreeQ, decTreeQ, List.append_assoc]
  simp only [decListN_rt encKC decKC t.dkeys (fun x _ => decKC_rt x),
    decListN_rt encRat decRat t.leaves (fun x _ => decRat_rt x),
    Option.some_bind]

theorem decTreeG_rt (t : DecisionTree (Option GaussianConditional))
    (rest : List Nat) : decTreeG (encTreeG t ++ rest) = some (t, rest) := by
  rw [encTreeG, decTreeG, List.append_assoc]
  simp only [decListN_rt encKC decKC t.dkeys (fun x _ => decKC_rt x),
    decListN_rt encOptGC decOptGC t.leaves (fun x _ => decOptGC_rt x),
    Option.some_bind]

theorem decHC_rt (hc : HybridConditional) (rest : List Nat) :
    decHC (encHC hc ++ rest) = some (hc, rest) := by
  cases hc with
  | discrete dc =>
      show decHC (0 :: (encTreeQ dc.table ++ rest)) = _
      rw [decHC]
      simp only [decTreeQ_rt, Option.some_bind]
  | gaussian gc =>
      show decHC (1 :: (encGC gc ++ rest)) = _
      rw [decHC]
      simp only [decGC_rt, Option.some_bind]
  | mixture gm =>
      show decHC (2 :: (encTreeG gm.tree ++ rest)) = _
      rw [decHC]
      · simp only [decTreeG_rt, Option.some_bind]
      · omega
      · omega

theorem decUnary_rt (n : Nat) (rest : List Bool) :
    decUnary (encUnary n ++ rest) = some (n, rest) := by
  induction n with
  | zero => rfl
  | succ k ih =>
      show decUnary (true :: (encUnary k ++ rest)) = _
      rw [decUnary]
      simp only [ih, Option.some_bind]

/-- C9: serializing a Hybrid Bayes Net and deserializing the result recovers
a net equal to the original, identically for the object, text, and binary
archives. -/
theorem claim_C9 (net : HybridBayesNet) :
    decodeObj (encodeObj net) = some net ∧
      decodeXML (encodeXML net) = some net ∧
      decodeBinary (encodeBinary net) = some net := by
  have hobj : decodeObj (encodeObj net) = some net := by
    rw [decodeObj, show encodeObj net = encodeObj net ++ [] by simp,
      show encodeObj net ++ [] = encListN encHC net ++ [] from rfl]
    rw [decListN_rt encHC decHC net (fun x _ => decHC_rt x)]
    rfl
  refine ⟨hobj, ?_, ?_⟩
  · rw [decodeXML, encodeXML, List.map_map]
    have hlen : (encodeObj net).map (String.length ∘ fun n =>
        String.mk (List.replicate n 'x')) = encodeObj net := by
      have : ∀ n : Nat, (String.mk (List.replicate n 'x')).length = n := by
        intro n
        show (List.replicate n 'x').length = n
        simp
      calc (encodeObj net).map (String.length ∘ fun n => String.mk (List.replicate n 'x'))
          = (encodeObj net).map id := List.map_congr_left fun n _ => this n
        _ = encodeObj net := List.map_id _
    rw [hlen, hobj]
  · rw [decodeBinary, encodeBinary]
    rw [show encUnary (encodeObj net).length ++ ((encodeObj net).map encUnary).flatten =
      encUnary (encodeObj net).length ++ (((encodeObj net).map encUnary).flatten ++ []) by simp]
    rw [decUnary_rt]
    simp only [Option.some_bind]
    rw [decListWith_rt encUnary decUnary (encodeObj net) (fun x _ => decUnary_rt x) []]
    simp only [Option.some_bind]
    exact hobj

/-- C10: for every values, an inactive factor's error is exactly 0 (it never
contributes to the objective, and the values are not even read), and an
active factor's error is the total reprojection error of the cameras built
from the poses in the values. -/
theorem claim_C10 {P C : Type} (f : SmartProjectionPoseFactor P C)
    (values : List (Key × P)) :
    (f.active values = false → sppfError f values = some 0) ∧
      (f.active values = true →
        sppfError f values = (sppfCameras f values).map f.totalReprojectionError) := by
  constructor
  · intro h
    rw [sppfError, h]
    rfl
  · intro h
    rw [sppfError, h]
    rfl

/-- C10 (witness): both branches evaluated on concrete factors over a trivial
pose type. -/
theorem claim_C10_witness :
    sppfError (⟨[7], none, (), fun p _ => p, fun _ => false, fun _ => 5⟩ :
        SmartProjectionPoseFactor Unit Unit) [] = some 0 ∧
      sppfError (⟨[7], none, (), fun p _ => p, fun _ => true, fun _ => 5⟩ :
        SmartProjectionPoseFactor Unit Unit) [(7, ())] = some 5 := by
  constructor
  · exact (claim_C10 (⟨[7], none, (), fun p _ => p, fun _ => false, fun _ => 5⟩ :
      SmartProjectionPoseFactor Unit Unit) []).1 rfl
  · have := (claim_C10 (⟨[7], none, (), fun p _ => p, fun _ => true, fun _ => 5⟩ :
      SmartProjectionPoseFactor Unit Unit) [(7, ())]).2 rfl
    rw [this]
    rfl

end GtsamHybrid
